import Mathlib

/-!
ibt: telemetry record decoding and distribution

A shallow embedding of the decode-and-distribution core of the `ibt` package
(`value_fast.go`, `parser.go`, `parser_zero_copy.go`, `mmap_reader.go`, `tick.go`,
`processor.go`),
followed by the properties proved of it.

Conventions of the embedding.

* A byte is a `Fin 256`; a Go `[]byte` whose capacity equals its length is a
  `List Byte`.
* Go's `int` is the 64-bit signed integer of the targets the package is built
  for.  A variable header is a struct of three `int`s, and the decoder forms
  its sums and products (`offset+count`, `count*4`, `offset+i+4`, ...) in
  64-bit arithmetic: each of them goes through `goInt`, which wraps at 64
  bits, as does the conversion `int(converted)` of a `uint32`.  A loop counter
  of the decoder stays below its bound and is not wrapped.  The record offsets
  of the parser, `BufOffset + current*BufLen`, are computed in `Int`.
* A run-time panic (index or slice bounds out of range, `make` with a negative
  length) is the result `none`.
* `float32` and `float64` values are carried as the bit pattern they are
  reinterpreted from, so `float32(0)` is the pattern `0`.
-/

namespace Ibt

/-! ## Bytes, slices and integer conversion -/

abbrev Byte := Fin 256

/-- Conversion of an integer to Go's 64-bit `int`: reduction modulo `2^64` into
the signed range. -/
def goInt (n : Int) : Int := (n + 2 ^ 63) % 2 ^ 64 - 2 ^ 63

/-- Index expression `buf[i]`; `none` is the index-out-of-range panic. -/
def index (buf : List Byte) (i : Int) : Option Byte :=
  if 0 ≤ i ∧ i < buf.length then buf[i.toNat]? else none

/-- Slice expression `buf[lo:hi]` on a slice whose capacity is its length;
`none` is the slice-bounds-out-of-range panic. -/
def slice (buf : List Byte) (lo hi : Int) : Option (List Byte) :=
  if 0 ≤ lo ∧ lo ≤ hi ∧ hi ≤ buf.length then
    some ((buf.drop lo.toNat).take (hi - lo).toNat)
  else none

/-- Slice expression `buf[lo:]`. -/
def sliceFrom (buf : List Byte) (lo : Int) : Option (List Byte) :=
  slice buf lo buf.length

/-- The `uint32` found at the start of `buf` on a little-endian machine:
`*(*uint32)(unsafe.Pointer(&buf[0]))`. -/
def le32 (buf : List Byte) : Nat :=
  (buf.getD 0 0).val + 256 * (buf.getD 1 0).val + 65536 * (buf.getD 2 0).val
    + 16777216 * (buf.getD 3 0).val

/-- The 64 bits found at the start of `buf` on a little-endian machine. -/
def le64 (buf : List Byte) : Nat :=
  le32 buf + 4294967296 * le32 (buf.drop 4)

/-! ## Decoded values -/

/-- The dynamic value (`interface{}`) stored in a tick.  `nil` is the nil
interface, which `readVarValueFast` returns for a raw type it has no case for.
Floating-point values are carried as their bit patterns. -/
inductive Value where
  | nil
  | u8 (v : Byte)
  | bool (b : Bool)
  | int (i : Int)
  | str (s : String)
  | f32 (bits : Nat)
  | f64 (bits : Nat)
  | u8s (l : List Byte)
  | bools (l : List Bool)
  | ints (l : List Int)
  | strs (l : List String)
  | f32s (l : List Nat)
  | f64s (l : List Nat)
  deriving DecidableEq, Repr

/-- Modelled from the spec: `headers.VarHeader`, declared outside the files
embedded here.  The spec's field descriptor is `{offset, count, rawType}`; the
decoder reads them as the Go ints `vh.Offset`, `vh.Count` and `vh.Rtype`, the
raw types U8, Bool, I32, BitfieldString, F32, F64 being the tags 0 to 5. -/
structure VarHeader where
  Rtype : Int
  Offset : Int
  Count : Int
  deriving DecidableEq, Repr

/-! ## `value_fast.go` -/

/-- `fastByte4ToFloat`: the bits of the `float32` at the start of `buf`. -/
def fastByte4ToFloat (buf : List Byte) : Nat :=
  if buf.length < 4 then 0 else le32 buf

/-- `fastByte4ToInt` (and `utilities.FastByte4ToInt`, which has the same
body). -/
def fastByte4ToInt (buf : List Byte) : Int :=
  if buf.length < 4 then 0
  else
    let converted := le32 buf
    if converted = 4294967295 then -1
    else goInt converted

/-- `fastByte8ToFloat`: the bits of the `float64` at the start of `buf`. -/
def fastByte8ToFloat (buf : List Byte) : Nat :=
  if buf.length < 8 then 0 else le64 buf

/-- Loop of the bool-array case,
`for i := 0; i < vh.Count && offset+i < len(buf); i++`.
The first argument is `vh.Count - i`, the iterations the first conjunct still
allows; `i` stays below `vh.Count`, so `i++` does not wrap. -/
def boolLoop (buf : List Byte) (offset : Int) : Nat → Int → List Bool → Option (List Bool)
  | 0, _, res => some res
  | n + 1, i, res =>
    if goInt (offset + i) < buf.length then
      match index buf (goInt (offset + i)) with
      | none => none
      | some b => boolLoop buf offset n (i + 1) (res ++ [decide (b.val > 0)])
    else some res

/-- Loop shared by the int, float32 and float64 array cases,
`for i := 0; i < bound; i += w { res = append(res, conv(buf[offset+i:])) }`,
where `bound` is `vh.Count*w` as Go computes it.  The first argument is fuel;
every iteration adds `w` to `i`, so `bound` units are enough (`convLoop_fuel`
below).  `bound` is a multiple of `w` that a Go `int` holds and `i` a smaller
one, so `i += w` does not wrap. -/
def convLoop {α : Type} (conv : List Byte → α) (w : Int) (buf : List Byte)
    (offset bound : Int) : Nat → Int → List α → Option (List α)
  | 0, _, res => some res
  | fuel + 1, i, res =>
    if i < bound then
      match sliceFrom buf (goInt (offset + i)) with
      | none => none
      | some s => convLoop conv w buf offset bound fuel (i + w) (res ++ [conv s])
    else some res

/-- Loop of the bitfield-array case,
`for i := 0; i < bound; i += 4 { if offset+i+4 <= len(buf) { ... } }`, where
`bound` is `vh.Count*4` as Go computes it.  The first argument is fuel, as in
`convLoop`. -/
def bitFieldLoop (Byte4toBitField : List Byte → String) (buf : List Byte) (offset bound : Int) :
    Nat → Int → List String → Option (List String)
  | 0, _, res => some res
  | fuel + 1, i, res =>
    if i < bound then
      if goInt (goInt (offset + i) + 4) ≤ buf.length then
        match slice buf (goInt (offset + i)) (goInt (goInt (offset + i) + 4)) with
        | none => none
        | some s =>
          bitFieldLoop Byte4toBitField buf offset bound fuel (i + 4)
            (res ++ [Byte4toBitField s])
      else bitFieldLoop Byte4toBitField buf offset bound fuel (i + 4) res
    else some res

/-- `readVarValueFast`.  `Byte4toBitField` is the rendering of a 4-byte word
from the `utilities` package, taken as a parameter.  The result `none` is a
panic.  Every sum and product of `int`s goes through `goInt`, the wrap of
Go's 64-bit `int`. -/
def readVarValueFast (Byte4toBitField : List Byte → String) (buf : List Byte)
    (vh : VarHeader) : Option Value :=
  let offset := vh.Offset
  if vh.Count > 1 then
    if vh.Rtype = 0 then
      if goInt (offset + vh.Count) ≤ buf.length then
        (slice buf offset (goInt (offset + vh.Count))).map Value.u8s
      else some (Value.u8s [])
    else if vh.Rtype = 1 then
      (boolLoop buf offset vh.Count.toNat 0 []).map Value.bools
    else if vh.Rtype = 2 then
      if goInt (offset + goInt (vh.Count * 4)) ≤ buf.length then
        (convLoop fastByte4ToInt 4 buf offset (goInt (vh.Count * 4))
          (goInt (vh.Count * 4)).toNat 0 []).map Value.ints
      else some (Value.ints [])
    else if vh.Rtype = 3 then
      (bitFieldLoop Byte4toBitField buf offset (goInt (vh.Count * 4))
        (goInt (vh.Count * 4)).toNat 0 []).map Value.strs
    else if vh.Rtype = 4 then
      if goInt (offset + goInt (vh.Count * 4)) ≤ buf.length then
        (convLoop fastByte4ToFloat 4 buf offset (goInt (vh.Count * 4))
          (goInt (vh.Count * 4)).toNat 0 []).map Value.f32s
      else some (Value.f32s [])
    else if vh.Rtype = 5 then
      if goInt (offset + goInt (vh.Count * 8)) ≤ buf.length then
        (convLoop fastByte8ToFloat 8 buf offset (goInt (vh.Count * 8))
          (goInt (vh.Count * 8)).toNat 0 []).map Value.f64s
      else some (Value.f64s [])
    else some Value.nil
  else
    if vh.Rtype = 0 then
      if offset < buf.length then (index buf offset).map Value.u8
      else some (Value.u8 0)
    else if vh.Rtype = 1 then
      if offset < buf.length then (index buf offset).map (fun b => Value.bool (decide (b.val > 0)))
      else some (Value.bool false)
    else if vh.Rtype = 2 then
      if goInt (offset + 4) ≤ buf.length then
        (sliceFrom buf offset).map (fun s => Value.int (fastByte4ToInt s))
      else some (Value.int 0)
    else if vh.Rtype = 3 then
      if goInt (offset + 4) ≤ buf.length then
        (slice buf offset (goInt (offset + 4))).map (fun s => Value.str (Byte4toBitField s))
      else some (Value.str "0x0")
    else if vh.Rtype = 4 then
      if goInt (offset + 4) ≤ buf.length then
        (sliceFrom buf offset).map (fun s => Value.f32 (fastByte4ToFloat s))
      else some (Value.f32 0)
    else if vh.Rtype = 5 then
      if goInt (offset + 8) ≤ buf.length then
        (sliceFrom buf offset).map (fun s => Value.f64 (fastByte8ToFloat s))
      else some (Value.f64 0)
    else some Value.nil

/-- Width in bytes of one element of a supported raw type. -/
def width (rtype : Int) : Int :=
  if rtype = 0 ∨ rtype = 1 then 1 else if rtype = 5 then 8 else 4

/-- The zero value the decoder substitutes for a scalar of a supported raw
type. -/
def zeroValue (rtype : Int) : Value :=
  if rtype = 0 then Value.u8 0
  else if rtype = 1 then Value.bool false
  else if rtype = 2 then Value.int 0
  else if rtype = 3 then Value.str "0x0"
  else if rtype = 4 then Value.f32 0
  else Value.f64 0

/-- Empty array of the element type of a supported raw type. -/
def emptyArray (rtype : Int) : Value :=
  if rtype = 0 then Value.u8s []
  else if rtype = 1 then Value.bools []
  else if rtype = 2 then Value.ints []
  else if rtype = 3 then Value.strs []
  else if rtype = 4 then Value.f32s []
  else Value.f64s []

/-- The integer that the sentinel rule assigns to a 32-bit word: `-1` for the
all-ones pattern, the unsigned value of the word otherwise. -/
def sentinel32 (u : Nat) : Int := if u = 4294967295 then -1 else u

/-- The signed 32-bit (two's-complement) reading of a 32-bit word. -/
def signed32 (u : Nat) : Int := if u < 2147483648 then u else (u : Int) - 4294967296

/-- A stand-in for the external bitfield rendering, used where the decoder is
evaluated on concrete bytes. -/
def sampleBitField (w : List Byte) : String := if le32 w = 0 then "0x0" else "0x1"

/-! ## `tick.go`: ticks -/

/-- Lookup in a Go map kept as an association list. -/
def lookupEntry {β : Type} (k : String) : List (String × β) → Option β
  | [] => none
  | (k', v) :: r => if k' = k then some v else lookupEntry k r

/-- Assignment `m[k] = v` in a Go map kept as an association list. -/
def setEntry {β : Type} (k : String) (v : β) : List (String × β) → List (String × β)
  | [] => [(k, v)]
  | (k', v') :: r => if k' = k then (k, v) :: r else (k', v') :: setEntry k v r

/-- A non-nil `Tick` (`map[string]interface{}`); the nil tick is `none` in an
`Option Tick`.  The order of `entries` carries no meaning. -/
structure Tick where
  entries : List (String × Value)
  deriving DecidableEq, Repr

/-- `make(Tick, n)`. -/
def Tick.empty : Tick := ⟨[]⟩

/-- Map read `t[k]`. -/
def Tick.get (t : Tick) (k : String) : Option Value := lookupEntry k t.entries

/-- Map write `t[k] = v`. -/
def Tick.set (t : Tick) (k : String) (v : Value) : Tick := ⟨setEntry k v t.entries⟩

/-- Keys of the tick. -/
def Tick.keys (t : Tick) : List String := t.entries.map Prod.fst

/-- Loop of `Tick.Filter`. -/
def filterLoop (t : Tick) : List String → Tick → Tick
  | [], partTick => partTick
  | field :: rest, partTick =>
    match t.get field with
    | some val => filterLoop t rest (partTick.set field val)
    | none => filterLoop t rest partTick

/-- `Tick.Filter`. -/
def Tick.Filter (t : Tick) (whitelist : List String) : Tick :=
  filterLoop t whitelist Tick.empty

/-- `Tick.Filter` called on a tick that may be nil: reads of a nil map find no
key, so it filters like the empty tick. -/
def filterNilable (t : Option Tick) (whitelist : List String) : Tick :=
  (t.getD Tick.empty).Filter whitelist

/-! ## Headers and byte sources -/

/-- Modelled from the spec: `headers.TelemetryHeader`, declared outside the
files embedded here.  The spec's record directory carries `recordBaseOffset`
and `recordStride`; the parser reads them as the Go ints `BufOffset` and
`BufLen`. -/
structure TelemetryHeader where
  BufOffset : Int
  BufLen : Int
  deriving DecidableEq, Repr

/-- Modelled from the spec: `headers.Header`, declared outside the files
embedded here; the part the parser and the pipeline read.  `VarHeader` is the
map from variable name to its header (the spec's record directory);
`SessionInfo` is the session metadata "passed opaquely through" to the
processors and stands here as a token. -/
structure Header where
  TelemetryHeader : TelemetryHeader
  SessionInfo : Nat
  VarHeader : List (String × VarHeader)
  deriving DecidableEq, Repr

/-- Modelled from the spec: `headers.Reader`, declared outside the files
embedded here; the raw byte source, "read N bytes at absolute offset O" into a
caller-owned buffer.  Over a source that does not change, `ReadAt(p, off)` is,
as the caller sees it, a function of `len(p)` and `off`: the bytes stored at
the front of `p` and whether `err != nil`. -/
structure Reader where
  ReadAt : Nat → Int → List Byte × Bool

/-- `MmapReader`: the mapped bytes. -/
structure MmapReader where
  data : List Byte
  deriving DecidableEq, Repr

/-- `MmapReader.ReadAt`: `io.EOF` and nothing copied when `off` is negative or
at or beyond the length; otherwise `copy(p, m.data[off:])` and no error. -/
def MmapReader.ReadAt (m : MmapReader) (n : Nat) (off : Int) : List Byte × Bool :=
  if off < 0 ∨ off ≥ m.data.length then ([], true)
  else ((m.data.drop off.toNat).take n, false)

/-- An `MmapReader` used as a `headers.Reader`. -/
def MmapReader.toReader (m : MmapReader) : Reader := ⟨m.ReadAt⟩

/-- The destination of `copy(dst, src)` after the copy. -/
def copyInto (dst src : List Byte) : List Byte :=
  src.take dst.length ++ dst.drop src.length

/-! ## `parser.go` -/

/-- `Parser`. -/
structure Parser where
  reader : Reader
  whitelist : List String
  header : Header
  current : Int
  bufferPool : List Byte
  tickPool : Tick
  varHeaders : List VarHeader
  varNames : List String

/-- Loop of `NewParser` that pre-computes the headers and names of the
whitelisted variables found in the directory. -/
def resolveWhitelist (vars : List (String × VarHeader)) :
    List String → List VarHeader × List String → List VarHeader × List String
  | [], acc => acc
  | name :: rest, (varHeaders, varNames) =>
    match lookupEntry name vars with
    | some varHeader => resolveWhitelist vars rest (varHeaders ++ [varHeader], varNames ++ [name])
    | none => resolveWhitelist vars rest (varHeaders, varNames)

/-- `NewParser`.  `make([]byte, BufLen)` panics for a negative `BufLen`. -/
def NewParser (reader : Reader) (header : Header) (whitelist : List String) : Option Parser :=
  if header.TelemetryHeader.BufLen < 0 then none
  else
    let resolved := resolveWhitelist header.VarHeader whitelist ([], [])
    some
      { reader := reader
        whitelist := whitelist
        header := header
        current := 1
        bufferPool := List.replicate header.TelemetryHeader.BufLen.toNat 0
        tickPool := Tick.empty
        varHeaders := resolved.1
        varNames := resolved.2 }

/-- `Parser.read`.  The slice it returns on success is `p.bufferPool` itself,
not a copy: the result is the parser with the buffer as `ReadAt` left it, and
whether the returned slice is non-nil.  What the returned slice holds is what
`bufferPool` holds at the time it is looked at. -/
def Parser.read (p : Parser) (start : Int) : Parser × Bool :=
  let r := p.reader.ReadAt p.bufferPool.length start
  ({ p with bufferPool := copyInto p.bufferPool r.1 }, !r.2)

/-- Loop of `readVarsFromBuffer` over `p.varHeaders`, writing into the cleared
`tickPool`; `p.varNames[i]` panics when `i` is out of range. -/
def fillTick (Byte4toBitField : List Byte → String) (buf : List Byte) (varNames : List String) :
    List VarHeader → Nat → Tick → Option Tick
  | [], _, tickPool => some tickPool
  | varHeader :: rest, i, tickPool =>
    match varNames[i]? with
    | none => none
    | some varName =>
      match readVarValueFast Byte4toBitField buf varHeader with
      | none => none
      | some val => fillTick Byte4toBitField buf varNames rest (i + 1) (tickPool.set varName val)

/-- `Parser.readVarsFromBuffer`: clears `tickPool`, decodes every pre-computed
variable from `buf` into it and returns a copy. -/
def Parser.readVarsFromBuffer (Byte4toBitField : List Byte → String) (p : Parser)
    (buf : List Byte) : Option (Parser × Tick) :=
  match fillTick Byte4toBitField buf p.varNames p.varHeaders 0 Tick.empty with
  | none => none
  | some tickPool => some ({ p with tickPool := tickPool }, tickPool)

/-- `Parser.Next`.  `currentBuf` and `nextBuf` are both the slice
`p.bufferPool`, so `readVarsFromBuffer(currentBuf)` decodes what the buffer
holds after the second `read`.  The outer `none` is a panic; the inner
`Option Tick` is `none` for the nil tick. -/
def Parser.Next (Byte4toBitField : List Byte → String) (p : Parser) :
    Option (Parser × Option Tick × Bool) :=
  let start := p.header.TelemetryHeader.BufOffset + p.current * p.header.TelemetryHeader.BufLen
  let (p1, currentOk) := p.read start
  if !currentOk then some (p1, none, false)
  else
    let nextStart :=
      p1.header.TelemetryHeader.BufOffset + (p1.current + 1) * p1.header.TelemetryHeader.BufLen
    let (p2, nextOk) := p1.read nextStart
    match p2.readVarsFromBuffer Byte4toBitField p2.bufferPool with
    | none => none
    | some (p3, newVars) => some ({ p3 with current := p3.current + 1 }, some newVars, nextOk)

/-- `Parser.ParseAt`. -/
def Parser.ParseAt (Byte4toBitField : List Byte → String) (p : Parser) (offset : Int) :
    Option (Parser × Option Tick) :=
  let (p1, currentOk) := p.read offset
  if !currentOk then some (p1, none)
  else
    match p1.readVarsFromBuffer Byte4toBitField p1.bufferPool with
    | none => none
    | some (p2, newVars) => some (p2, some newVars)

/-- `Parser.Seek`. -/
def Parser.Seek (p : Parser) (iter : Int) : Parser := { p with current := iter }

/-- `Parser.UpdateWhitelist`. -/
def Parser.UpdateWhitelist (p : Parser) (whitelist : List String) : Parser :=
  { p with whitelist := whitelist }

/-- The parser after `k` calls to `Next` (`none` if one of them panicked). -/
def Parser.afterNext (Byte4toBitField : List Byte → String) (p : Parser) : Nat → Option Parser
  | 0 => some p
  | k + 1 =>
    match Parser.afterNext Byte4toBitField p k with
    | none => none
    | some q => (q.Next Byte4toBitField).map (fun r => r.1)

/-- What the `k`-th call to `Next` returns (`k = 1` is the first call):
the tick and the `hasMore` flag; `none` is a panic. -/
def Parser.nthNext (Byte4toBitField : List Byte → String) (p : Parser) (k : Nat) :
    Option (Option Tick × Bool) :=
  match Parser.afterNext Byte4toBitField p (k - 1) with
  | none => none
  | some q => (q.Next Byte4toBitField).map (fun r => r.2)

/-- The bytes of record `k` in the source: `BufLen` bytes at
`BufOffset + k*BufLen`. -/
def recordBytes (data : List Byte) (th : TelemetryHeader) (k : Nat) : List Byte :=
  (data.drop (th.BufOffset + k * th.BufLen).toNat).take th.BufLen.toNat

/-! ## `processor.go` -/

/-- Modelled from the spec: `headers.AvailableVars`, which is not among the
sources at hand.  The spec has the "all fields" request expand "to every
directory field": the names of the directory, one per entry. -/
def AvailableVars (vars : List (String × VarHeader)) : List String :=
  vars.map Prod.fst

/-- Loop of `GetDistinct`: keeps an item the first time it is met. -/
def getDistinctLoop : List String → List String → List String
  | [], distinct => distinct
  | item :: rest, distinct =>
    if item ∈ distinct then getDistinctLoop rest distinct
    else getDistinctLoop rest (distinct ++ [item])

/-- Modelled from the spec: `utilities.GetDistinct`, which is not among the
sources at hand.  The spec forms the combined whitelist as "the set union
across all Analyzers", each overlapping field "exactly once": the list without
its repetitions, in order of first occurrence. -/
def GetDistinct (items : List String) : List String :=
  getDistinctLoop items []

/-- One call of a processor's `Process` as the pipeline makes it: the position
of the processor in the argument list, the tick (nil is `none`), `hasNext` and
the session. -/
structure Call where
  proc : Nat
  input : Option Tick
  hasNext : Bool
  session : Nat
  deriving DecidableEq, Repr

/-- The `Processor` interface.  `Whitelist` is what `Whitelist()` returns.
`Process` gives the error of a call (`none` for a nil error) from the calls the
pipeline has made before it, which stand for the state the processors have
accumulated, and the arguments of the call. -/
structure Processor where
  Whitelist : List String
  Process : List Call → Option Tick → Bool → Nat → Option String

/-- Modelled from the spec: `Stub`, declared outside the files embedded here;
the part `process` reads, a raw byte source and the parsed header. -/
structure Stub where
  r : Reader
  header : Header

/-- `parseAndValidateWhitelist`. -/
def parseAndValidateWhitelist (vars : List (String × VarHeader)) (processor : Processor) :
    List String :=
  let whitelist := processor.Whitelist
  if whitelist.length = 0 then AvailableVars vars
  else if whitelist.any (fun col => col = "*") then AvailableVars vars
  else whitelist.filter (fun col => (lookupEntry col vars).isSome)

/-- `buildWhitelist`. -/
def buildWhitelist (vars : List (String × VarHeader)) (processors : List Processor) :
    List String :=
  GetDistinct
    (processors.foldl (fun whitelist proc => whitelist ++ parseAndValidateWhitelist vars proc) [])

/-- How a run of `process` ends: the fuel given to its `for` loop ran out, it
panicked, or it returned `err`.  `calls` are the `Process` calls made, in
order, up to that point. -/
inductive Outcome where
  | outOfFuel
  | panicked (calls : List Call)
  | returned (err : Option String) (calls : List Call)
  deriving DecidableEq, Repr

/-- Inner loop of `process`, `for _, proc := range processors`, from the
processor at position `i` on.  Returns the error that ends `process`, if one
does, and the calls made so far. -/
def runProcessors (whitelist : List String) (tick : Option Tick) (hasNext : Bool) (session : Nat) :
    List Processor → Nat → List Call → Option String × List Call
  | [], _, calls => (none, calls)
  | proc :: rest, i, calls =>
    let procWhitelist := proc.Whitelist
    let input : Option Tick :=
      if procWhitelist.length ≥ whitelist.length then tick
      else some (filterNilable tick procWhitelist)
    match proc.Process calls input hasNext session with
    | some err => (some err, calls ++ [⟨i, input, hasNext, session⟩])
    | none =>
      runProcessors whitelist tick hasNext session rest (i + 1)
        (calls ++ [⟨i, input, hasNext, session⟩])

/-- Outer loop of `process`.  `ctx n` tells whether `ctx.Done()` is found
closed at the start of iteration `n` (counted from 0).  The first argument is
fuel: one unit per iteration. -/
def processLoop (Byte4toBitField : List Byte → String) (ctx : Nat → Bool) (header : Header)
    (whitelist : List String) (processors : List Processor) :
    Nat → Nat → Parser → List Call → Outcome
  | 0, _, _, _ => Outcome.outOfFuel
  | fuel + 1, n, parser, calls =>
    if ctx n then Outcome.returned (some "context cancelled") calls
    else
      match parser.Next Byte4toBitField with
      | none => Outcome.panicked calls
      | some (parser1, tick, hasNext) =>
        match runProcessors whitelist tick hasNext header.SessionInfo processors 0 calls with
        | (some err, calls1) => Outcome.returned (some err) calls1
        | (none, calls1) =>
          if !hasNext then Outcome.returned none calls1
          else processLoop Byte4toBitField ctx header whitelist processors fuel (n + 1) parser1 calls1

/-- `process`, with `fuel` iterations allowed to its loop. -/
def process (Byte4toBitField : List Byte → String) (fuel : Nat) (ctx : Nat → Bool) (stub : Stub)
    (processors : List Processor) : Outcome :=
  let header := stub.header
  let whitelist := buildWhitelist header.VarHeader processors
  match NewParser stub.r header whitelist with
  | none => Outcome.panicked []
  | some parser => processLoop Byte4toBitField ctx header whitelist processors fuel 0 parser []

/-- A context that is never cancelled. -/
def background : Nat → Bool := fun _ => false

/-- The calls of the processor at position `i` among `calls`. -/
def callsOf (i : Nat) (calls : List Call) : List Call :=
  calls.filter (fun c => c.proc = i)

/-- The argument `process` passes to a processor for a decoded tick: the tick
itself when the processor's whitelist is at least as long as the combined one,
the filtered tick otherwise. -/
def inputFor (whitelist : List String) (proc : Processor) (tick : Option Tick) : Option Tick :=
  if proc.Whitelist.length ≥ whitelist.length then tick
  else some (filterNilable tick proc.Whitelist)

/-! ## Conditions on the inputs -/

/-- The offset of record `c` of the parser's source,
`BufOffset + c*BufLen`. -/
def Parser.recordOffset (p : Parser) (c : Int) : Int :=
  p.header.TelemetryHeader.BufOffset + c * p.header.TelemetryHeader.BufLen

/-- The source `data` holds the records `0..N`, of `BufLen > 0` bytes each,
from `BufOffset` on, and nothing after them. -/
def holdsRecords (data : List Byte) (th : TelemetryHeader) (N : Nat) : Prop :=
  0 ≤ th.BufOffset ∧ 0 < th.BufLen ∧ (data.length : Int) = th.BufOffset + (N + 1) * th.BufLen

/-- Every variable of the directory has an offset inside the record's address
range, that is, not negative. -/
def offsetsNonneg (vars : List (String × VarHeader)) : Prop :=
  ∀ e ∈ vars, 0 ≤ e.2.Offset

/-- The end of the descriptor's span, `Offset + n*width` with `n` the count of
an array and 1 for a scalar, is an address that a Go `int` holds, that is, at
most `2^63 - 1`. -/
def VarHeader.spanFits (vh : VarHeader) : Prop :=
  vh.Offset + max vh.Count 1 * width vh.Rtype < 2 ^ 63

/-- Every variable of the directory has a span that ends at an address a Go
`int` holds. -/
def spansRepresentable (vars : List (String × VarHeader)) : Prop :=
  ∀ e ∈ vars, e.2.spanFits

/-- The pre-computed headers of a parser have a name each, no negative offset
and a span that ends at an address a Go `int` holds. -/
def Parser.wellFormed (p : Parser) : Prop :=
  (∀ vh ∈ p.varHeaders, 0 ≤ vh.Offset ∧ vh.spanFits) ∧
    p.varHeaders.length = p.varNames.length

/-- What the steps of a parser leave alone: the source, the header, the
pre-computed variables and the length of the buffer. -/
structure SameConfig (p q : Parser) : Prop where
  reader : q.reader = p.reader
  header : q.header = p.header
  varHeaders : q.varHeaders = p.varHeaders
  varNames : q.varNames = p.varNames
  bufLen : q.bufferPool.length = p.bufferPool.length

/-- The tick the `k`-th call to `Next` returns (nil, as `none`, also when the
call panics). -/
def Parser.nthTick (Byte4toBitField : List Byte → String) (p : Parser) (k : Nat) : Option Tick :=
  match p.nthNext Byte4toBitField k with
  | some (tick, _) => tick
  | none => none

/-- The calls `process` makes for one tick when none of them fails: one to each
processor from position `i` on, in order. -/
def recordCalls (whitelist : List String) (session : Nat) (tick : Option Tick) (hasNext : Bool) :
    List Processor → Nat → List Call
  | [], _ => []
  | proc :: rest, i =>
    ⟨i, inputFor whitelist proc tick, hasNext, session⟩
      :: recordCalls whitelist session tick hasNext rest (i + 1)

/-- The calls of `m` successive records from record `c` on, `mk k` being those
of record `k`. -/
def expectedCalls (mk : Nat → List Call) : Nat → Nat → List Call
  | _, 0 => []
  | c, m + 1 => mk c ++ expectedCalls mk (c + 1) m

/-! ## Sample inputs -/

/-- A 16-byte record whose `Speed` word (offset 0) starts with the byte `speed`
and whose `Gear` word (offset 4) starts with the byte `gear`. -/
def sampleRecord (speed gear : Byte) : List Byte :=
  [speed, 0, 0, 0, gear, 0, 0, 0, 0, 0, 0, 0, 0, 0, 0, 0]

/-- The header of the samples: records of 16 bytes from offset 0, with `Speed`
(float32, offset 0) and `Gear` (int, offset 4). -/
def sampleHeader : Header :=
  ⟨⟨0, 16⟩, 0, [("Speed", ⟨4, 0, 1⟩), ("Gear", ⟨2, 4, 1⟩)]⟩

/-- A source holding record 0 and one valid record. -/
def oneRecord : List Byte := sampleRecord 0 0 ++ sampleRecord 1 1

/-- A source holding record 0 and two valid records. -/
def twoRecords : List Byte := sampleRecord 0 0 ++ sampleRecord 1 1 ++ sampleRecord 2 2

/-- A source holding record 0 and three valid records. -/
def threeRecords : List Byte :=
  sampleRecord 0 0 ++ sampleRecord 1 1 ++ sampleRecord 2 2 ++ sampleRecord 3 3

/-- A processor with the given whitelist whose `Process` never fails. -/
def quietProcessor (whitelist : List String) : Processor :=
  ⟨whitelist, fun _ _ _ _ => none⟩

/-- The scalar values held by an array value, in order; `none` for a value
that is not an array. -/
def Value.elems : Value → Option (List Value)
  | Value.u8s l => some (l.map Value.u8)
  | Value.bools l => some (l.map Value.bool)
  | Value.ints l => some (l.map Value.int)
  | Value.strs l => some (l.map Value.str)
  | Value.f32s l => some (l.map Value.f32)
  | Value.f64s l => some (l.map Value.f64)
  | _ => none

/-- The parser states that calls to `Next`, `ParseAt` and `Seek` lead to from
a given state. -/
inductive Parser.Reaches (Byte4toBitField : List Byte → String) (p : Parser) : Parser → Prop
  | start : Parser.Reaches Byte4toBitField p p
  | next {q q' : Parser} {r : Option Tick × Bool} :
      Parser.Reaches Byte4toBitField p q → q.Next Byte4toBitField = some (q', r) →
      Parser.Reaches Byte4toBitField p q'
  | parseAt {q q' : Parser} {offset : Int} {t : Option Tick} :
      Parser.Reaches Byte4toBitField p q → q.ParseAt Byte4toBitField offset = some (q', t) →
      Parser.Reaches Byte4toBitField p q'
  | seek {q : Parser} (iter : Int) :
      Parser.Reaches Byte4toBitField p q → Parser.Reaches Byte4toBitField p (q.Seek iter)

/-- The first read of `Next`. -/
def Parser.afterRead (p : Parser) : Parser :=
  (p.read (p.recordOffset p.current)).1

/-- The second, look-ahead read of `Next`. -/
def Parser.afterLookAhead (p : Parser) : Parser :=
  (p.afterRead.read (p.afterRead.recordOffset (p.afterRead.current + 1))).1

/-- `process` entered when the processors have already received `calls`:
`process` itself is the case of no earlier call. -/
def processFrom (Byte4toBitField : List Byte → String) (fuel : Nat) (ctx : Nat → Bool)
    (stub : Stub) (processors : List Processor) (calls : List Call) : Outcome :=
  let header := stub.header
  let whitelist := buildWhitelist header.VarHeader processors
  match NewParser stub.r header whitelist with
  | none => Outcome.panicked calls
  | some parser => processLoop Byte4toBitField ctx header whitelist processors fuel 0 parser calls

/-- Loop of `Process`, `for _, stub := range stubs`, from the stub at position
`s` on.  `ctx s n` tells whether `ctx.Done()` is found closed at the start of
iteration `n` of `process` on the stub at position `s`; each `process` is
allowed `fuel` iterations. -/
def ProcessLoop (Byte4toBitField : List Byte → String) (fuel : Nat) (ctx : Nat → Nat → Bool)
    (processors : List Processor) : List Stub → Nat → List Call → Outcome
  | [], _, calls => Outcome.returned none calls
  | stub :: rest, s, calls =>
    match processFrom Byte4toBitField fuel (ctx s) stub processors calls with
    | Outcome.returned none calls1 =>
      ProcessLoop Byte4toBitField fuel ctx processors rest (s + 1) calls1
    | out => out

/-- `Process`.  `sortStubs` is `sort.Sort(stubs)`, whose order is given by the
methods of `StubGroup`, declared outside the files embedded here; it is taken
as a parameter. -/
def Process (Byte4toBitField : List Byte → String) (sortStubs : List Stub → List Stub)
    (fuel : Nat) (ctx : Nat → Nat → Bool) (stubs : List Stub) (processors : List Processor) :
    Outcome :=
  ProcessLoop Byte4toBitField fuel ctx processors (sortStubs stubs) 0 []

/-- The calls made in a run that ended otherwise than by lack of fuel. -/
def Outcome.log : Outcome → Option (List Call)
  | Outcome.outOfFuel => none
  | Outcome.panicked calls => some calls
  | Outcome.returned _ calls => some calls

/-- What the `j`-th call of a log returned: the error of the processor it was
made to, on the calls made before it and its arguments. -/
def callResult (procs : List Processor) (calls : List Call) (j : Nat) : Option String :=
  match calls[j]? with
  | none => none
  | some c =>
    match procs[c.proc]? with
    | none => none
    | some proc => proc.Process (calls.take j) c.input c.hasNext c.session

/-- No call of the log returned an error. -/
def allSucceeded (procs : List Processor) (calls : List Call) : Prop :=
  ∀ j, callResult procs calls j = none

/-- The log of an outcome is that of a run stopped by the first error: either
no call failed, or the run returned the error of the last call and no earlier
call failed. -/
def Outcome.sound (procs : List Processor) : Outcome → Prop
  | Outcome.outOfFuel => True
  | Outcome.panicked calls => allSucceeded procs calls
  | Outcome.returned none calls => allSucceeded procs calls
  | Outcome.returned (some e) calls =>
    allSucceeded procs calls ∨
      ∃ pre c, calls = pre ++ [c] ∧ allSucceeded procs pre ∧
        callResult procs calls pre.length = some e

/-- A tick with the fields of the sample header. -/
def sampleTick : Tick := ⟨[("Speed", Value.f32 1), ("Gear", Value.int 4)]⟩

/-- A 16-byte buffer whose bytes 12 to 15 are FF. -/
def sentinelRecord : List Byte :=
  [0, 0, 0, 0, 0, 0, 0, 0, 0, 0, 0, 0, 0xFF, 0xFF, 0xFF, 0xFF]

/-- A source holding record 0 and five valid records. -/
def fiveRecords : List Byte :=
  threeRecords ++ sampleRecord 4 4 ++ sampleRecord 5 5

/-- A context found cancelled from iteration `m` on: the signal is given after
`m` records have been processed. -/
def cancelAfter (m : Nat) : Nat → Bool := fun n => decide (m ≤ n)

/-- A processor asking for `Gear` whose `Process` fails on the second call the
pipeline makes. -/
def failingProcessor : Processor :=
  ⟨["Gear"], fun calls _ _ _ => if calls.length = 1 then some "boom" else none⟩

/-! ## `parser_zero_copy.go` and `GetTickValue` -/

/-- `ZeroCopyParser`: the embedded `Parser` and the tick reused from call to
call.  The pool of tick copies serves `GetTickCopy` and `ReturnTickCopy` only
and is left out. -/
structure ZeroCopyParser where
  Parser : Parser
  resultTick : Tick

/-- `NewZeroCopyParser`. -/
def NewZeroCopyParser (reader : Reader) (header : Header) (whitelist : List String) :
    Option ZeroCopyParser :=
  match NewParser reader header whitelist with
  | none => none
  | some baseParser => some { Parser := baseParser, resultTick := Tick.empty }

/-- `ZeroCopyParser.readVarsFromBufferZeroCopy`: clears `resultTick` and
decodes every pre-computed variable from `buf` into it. -/
def ZeroCopyParser.readVarsFromBufferZeroCopy (Byte4toBitField : List Byte → String)
    (p : ZeroCopyParser) (buf : List Byte) : Option ZeroCopyParser :=
  match fillTick Byte4toBitField buf p.Parser.varNames p.Parser.varHeaders 0 Tick.empty with
  | none => none
  | some resultTick => some { p with resultTick := resultTick }

/-- `ZeroCopyParser.NextZeroCopy`.  As in `Next`, `currentBuf` is the slice
`bufferPool`, read after the second `read`.  The tick returned is `resultTick`
itself, given here with the value it has when the call returns. -/
def ZeroCopyParser.NextZeroCopy (Byte4toBitField : List Byte → String) (p : ZeroCopyParser) :
    Option (ZeroCopyParser × Option Tick × Bool) :=
  let start :=
    p.Parser.header.TelemetryHeader.BufOffset
      + p.Parser.current * p.Parser.header.TelemetryHeader.BufLen
  let (p1, currentOk) := p.Parser.read start
  if !currentOk then some ({ p with Parser := p1 }, none, false)
  else
    let nextStart :=
      p1.header.TelemetryHeader.BufOffset + (p1.current + 1) * p1.header.TelemetryHeader.BufLen
    let (p2, nextOk) := p1.read nextStart
    match ZeroCopyParser.readVarsFromBufferZeroCopy Byte4toBitField { p with Parser := p2 }
        p2.bufferPool with
    | none => none
    | some p3 =>
      some ({ p3 with Parser := { p3.Parser with current := p3.Parser.current + 1 } },
        some p3.resultTick, nextOk)

/-- The zero-copy parser after `k` calls to `NextZeroCopy` (`none` if one of
them panicked). -/
def ZeroCopyParser.afterNext (Byte4toBitField : List Byte → String) (p : ZeroCopyParser) :
    Nat → Option ZeroCopyParser
  | 0 => some p
  | k + 1 =>
    match ZeroCopyParser.afterNext Byte4toBitField p k with
    | none => none
    | some q => (q.NextZeroCopy Byte4toBitField).map (fun r => r.1)

/-- What the `k`-th call to `NextZeroCopy` returns (`k = 1` is the first
call): the tick and the `hasMore` flag; `none` is a panic. -/
def ZeroCopyParser.nthNext (Byte4toBitField : List Byte → String) (p : ZeroCopyParser)
    (k : Nat) : Option (Option Tick × Bool) :=
  match ZeroCopyParser.afterNext Byte4toBitField p (k - 1) with
  | none => none
  | some q => (q.NextZeroCopy Byte4toBitField).map (fun r => r.2)

/-- Two parsers that differ at most in `tickPool`. -/
def Parser.sameButTick (p q : Parser) : Prop :=
  p.reader = q.reader ∧ p.whitelist = q.whitelist ∧ p.header = q.header ∧
    p.current = q.current ∧ p.bufferPool = q.bufferPool ∧ p.varHeaders = q.varHeaders ∧
    p.varNames = q.varNames

/-- The types a caller may request from `GetTickValue` (`TickValueType`). -/
inductive Kind where
  | u8 | u8s | bool | bools | int | ints | str | strs | f32 | f32s | f64 | f64s
  deriving DecidableEq, Repr

/-- The dynamic type of a stored value; the nil interface has none. -/
def Value.kind : Value → Option Kind
  | Value.nil => none
  | Value.u8 _ => some Kind.u8
  | Value.bool _ => some Kind.bool
  | Value.int _ => some Kind.int
  | Value.str _ => some Kind.str
  | Value.f32 _ => some Kind.f32
  | Value.f64 _ => some Kind.f64
  | Value.u8s _ => some Kind.u8s
  | Value.bools _ => some Kind.bools
  | Value.ints _ => some Kind.ints
  | Value.strs _ => some Kind.strs
  | Value.f32s _ => some Kind.f32s
  | Value.f64s _ => some Kind.f64s

/-- `reflect.TypeOf(x).String()` for a value `x` of the type. -/
def Kind.typeName : Kind → String
  | Kind.u8 => "uint8"
  | Kind.u8s => "[]uint8"
  | Kind.bool => "bool"
  | Kind.bools => "[]bool"
  | Kind.int => "int"
  | Kind.ints => "[]int"
  | Kind.str => "string"
  | Kind.strs => "[]string"
  | Kind.f32 => "float32"
  | Kind.f32s => "[]float32"
  | Kind.f64 => "float64"
  | Kind.f64s => "[]float64"

/-- The zero value `var def T`; the nil slice is the empty array. -/
def Kind.zero : Kind → Value
  | Kind.u8 => Value.u8 0
  | Kind.u8s => Value.u8s []
  | Kind.bool => Value.bool false
  | Kind.bools => Value.bools []
  | Kind.int => Value.int 0
  | Kind.ints => Value.ints []
  | Kind.str => Value.str ""
  | Kind.strs => Value.strs []
  | Kind.f32 => Value.f32 0
  | Kind.f32s => Value.f32s []
  | Kind.f64 => Value.f64 0
  | Kind.f64s => Value.f64s []

/-- `GetTickValue[T]`: the value and the error (`none` for nil) it returns; the
outer `none` is a panic.  When the assertion `rawValue.(T)` fails the error
message is built from `reflect.TypeOf(rawValue).String()`; for the nil
interface `reflect.TypeOf` returns the nil `Type`, and the call of `String` on
it panics. -/
def GetTickValue (T : Kind) (tick : Tick) (key : String) : Option (Value × Option String) :=
  match tick.get key with
  | none => some (T.zero, some ("key " ++ key ++ " not found in tick"))
  | some rawValue =>
    if rawValue.kind = some T then some (rawValue, none)
    else
      match rawValue.kind with
      | none => none
      | some k =>
        some (T.zero,
          some ("value of " ++ key ++ " was " ++ k.typeName ++ " not " ++ T.typeName))

/-- A header whose directory has one variable, of a raw type the decoder has
no case for. -/
def mysteryHeader : Header := ⟨⟨0, 16⟩, 0, [("Mystery", ⟨6, 0, 1⟩)]⟩

/-- A header with records of two bytes and one U8 variable at offset 1. -/
def shortHeader : Header := ⟨⟨0, 2⟩, 0, [("x", ⟨0, 1, 1⟩)]⟩

/-- A source of three bytes: with records of two bytes, a read at offset 2
starts inside the data and finds one byte. -/
def threeBytes : List Byte := [10, 11, 12]

/-! ## The decoder -/

theorem goInt_of_lt (n : Nat) (h : n < 4294967296) : goInt n = n := by
  unfold goInt
  omega

theorem goInt_of_range {x : Int} (h0 : -2 ^ 63 ≤ x) (h1 : x < 2 ^ 63) : goInt x = x := by
  unfold goInt
  omega

theorem goInt_le_self {x : Int} (h0 : 0 ≤ x) : goInt x ≤ x := by
  unfold goInt
  omega

theorem le32_lt (buf : List Byte) : le32 buf < 4294967296 := by
  unfold le32
  have h0 := (buf.getD 0 0).isLt
  have h1 := (buf.getD 1 0).isLt
  have h2 := (buf.getD 2 0).isLt
  have h3 := (buf.getD 3 0).isLt
  omega

theorem index_eq_some {buf : List Byte} {i : Int} (h0 : 0 ≤ i) (h1 : i < buf.length) :
    index buf i = some (buf.getD i.toNat 0) := by
  have h2 : i.toNat < buf.length := by omega
  simp [index, h0, h1, List.getD, List.getElem?_eq_getElem h2]

theorem slice_eq_some {buf : List Byte} {lo hi : Int} (h0 : 0 ≤ lo) (h1 : lo ≤ hi)
    (h2 : hi ≤ buf.length) :
    slice buf lo hi = some ((buf.drop lo.toNat).take (hi - lo).toNat) := by
  simp [slice, h0, h1, h2]

theorem sliceFrom_eq_some {buf : List Byte} {lo : Int} (h0 : 0 ≤ lo) (h1 : lo ≤ buf.length) :
    sliceFrom buf lo = some (buf.drop lo.toNat) := by
  unfold sliceFrom
  rw [slice_eq_some h0 h1 (le_refl _)]
  congr 1
  apply List.take_of_length_le
  simp
  omega

/-- The bool loop while no offset it visits wraps: one element for each of the
next `n` bytes the buffer has. -/
theorem boolLoop_eq (buf : List Byte) (offset : Int) :
    ∀ (n : Nat) (i : Int) (res : List Bool), 0 ≤ offset + i → offset + i + n ≤ 2 ^ 63 →
      boolLoop buf offset n i res
        = some (res ++ ((buf.drop (offset + i).toNat).take n).map
            (fun b => decide (b.val > 0))) := by
  intro n
  induction n with
  | zero => intro i res _ _; simp [boolLoop]
  | succ n ih =>
    intro i res h0 hfit
    unfold boolLoop
    rw [goInt_of_range (x := offset + i) (by omega) (by omega)]
    by_cases h1 : offset + i < buf.length
    · have h2 : (offset + i).toNat < buf.length := by omega
      rw [if_pos h1, index_eq_some h0 h1]
      simp only []
      rw [ih (i + 1) _ (by omega) (by omega)]
      have h3 : (offset + (i + 1)).toNat = (offset + i).toNat + 1 := by omega
      have hg : buf.getD (offset + i).toNat 0 = buf[(offset + i).toNat] := by
        simp [List.getD, List.getElem?_eq_getElem h2]
      rw [h3, List.drop_eq_getElem_cons h2, hg]
      simp only [List.take_succ_cons, List.map_cons, List.append_assoc, List.singleton_append]
    · have h2 : buf.length ≤ (offset + i).toNat := by omega
      rw [if_neg h1, List.drop_of_length_le h2]
      simp

/-- The fuel of `convLoop` is enough once it covers the distance from `i` to
`bound`: more of it does not change the result. -/
theorem convLoop_fuel {α : Type} (conv : List Byte → α) (w : Int) (hw : 0 < w)
    (buf : List Byte) (offset bound : Int) :
    ∀ (fuel fuel' : Nat) (i : Int) (res : List α), (bound - i).toNat ≤ fuel →
      (bound - i).toNat ≤ fuel' →
      convLoop conv w buf offset bound fuel i res
        = convLoop conv w buf offset bound fuel' i res := by
  intro fuel
  induction fuel with
  | zero =>
    intro fuel' i res h _
    have hlt : ¬ i < bound := by omega
    cases fuel' with
    | zero => rfl
    | succ fuel' => simp only [convLoop, if_neg hlt]
  | succ fuel ih =>
    intro fuel' i res h h'
    cases fuel' with
    | zero =>
      have hlt : ¬ i < bound := by omega
      simp only [convLoop, if_neg hlt]
    | succ fuel' =>
      unfold convLoop
      by_cases hlt : i < bound
      · rw [if_pos hlt, if_pos hlt]
        cases sliceFrom buf (goInt (offset + i)) with
        | none => rfl
        | some s => exact ih fuel' (i + w) _ (by omega) (by omega)
      · rw [if_neg hlt, if_neg hlt]

/-- The fuel of `bitFieldLoop` is enough once it covers the distance from `i`
to `bound`: more of it does not change the result. -/
theorem bitFieldLoop_fuel (bf : List Byte → String) (buf : List Byte) (offset bound : Int) :
    ∀ (fuel fuel' : Nat) (i : Int) (res : List String), (bound - i).toNat ≤ fuel →
      (bound - i).toNat ≤ fuel' →
      bitFieldLoop bf buf offset bound fuel i res
        = bitFieldLoop bf buf offset bound fuel' i res := by
  intro fuel
  induction fuel with
  | zero =>
    intro fuel' i res h _
    have hlt : ¬ i < bound := by omega
    cases fuel' with
    | zero => rfl
    | succ fuel' => simp only [bitFieldLoop, if_neg hlt]
  | succ fuel ih =>
    intro fuel' i res h h'
    cases fuel' with
    | zero =>
      have hlt : ¬ i < bound := by omega
      simp only [bitFieldLoop, if_neg hlt]
    | succ fuel' =>
      unfold bitFieldLoop
      by_cases hlt : i < bound
      · rw [if_pos hlt, if_pos hlt]
        by_cases hg : goInt (goInt (offset + i) + 4) ≤ buf.length
        · rw [if_pos hg, if_pos hg]
          cases slice buf (goInt (offset + i)) (goInt (goInt (offset + i) + 4)) with
          | none => rfl
          | some s => exact ih fuel' (i + 4) _ (by omega) (by omega)
        · rw [if_neg hg, if_neg hg]
          exact ih fuel' (i + 4) _ (by omega) (by omega)
      · rw [if_neg hlt, if_neg hlt]

/-- The loop of the int and float arrays while no offset it visits wraps and
the `n` words left up to `bound` are inside the buffer: one element for each
of them. -/
theorem convLoop_eq {α : Type} (conv : List Byte → α) (w : Nat) (hw : 0 < w) (buf : List Byte)
    (offset bound : Int) :
    ∀ (n fuel : Nat) (i : Int) (res : List α), n ≤ fuel → bound = i + (n : Int) * w →
      0 ≤ offset + i → offset + bound ≤ buf.length → offset + bound ≤ 2 ^ 63 →
      convLoop conv w buf offset bound fuel i res
        = some (res ++ (List.range n).map
            (fun j => conv (buf.drop ((offset + i).toNat + j * w)))) := by
  intro n
  induction n with
  | zero =>
    intro fuel i res _ hb _ _ _
    have hlt : ¬ i < bound := by rw [hb]; simp
    cases fuel with
    | zero => simp [convLoop]
    | succ fuel => unfold convLoop; rw [if_neg hlt]; simp
  | succ n ih =>
    intro fuel i res hf hb h0 h1 hfit
    obtain ⟨fuel, rfl⟩ : ∃ f, fuel = f + 1 := ⟨fuel - 1, by omega⟩
    have hnw : (0 : Int) ≤ (n : Int) * w := by positivity
    have hb2 : bound = i + w + (n : Int) * w := by rw [hb]; push_cast; ring
    have hlt : i < bound := by omega
    unfold convLoop
    rw [if_pos hlt, goInt_of_range (x := offset + i) (by omega) (by omega)]
    rw [sliceFrom_eq_some h0 (by omega)]
    simp only []
    rw [ih fuel (i + w) _ (by omega) hb2 (by omega) h1 hfit]
    have h3 : (offset + (i + (w : Int))).toNat = (offset + i).toNat + w := by omega
    rw [List.range_succ_eq_map]
    simp only [h3, List.map_cons, List.map_map, Function.comp_def, List.append_assoc,
      List.singleton_append, Nat.zero_mul, Nat.add_zero, Option.some.injEq,
      List.append_cancel_left_eq, List.cons.injEq, true_and]
    apply List.map_congr_left
    intro a _
    congr 2
    rw [Nat.succ_mul]
    omega

/-- The bitfield loop from a word that is not whole in the buffer on: no
later word is whole either, and nothing is appended. -/
theorem bitFieldLoop_skip (bf : List Byte → String) (buf : List Byte) (offset bound : Int) :
    ∀ (n fuel : Nat) (i : Int) (res : List String), bound = i + (n : Int) * 4 →
      0 ≤ offset + i → offset + bound < 2 ^ 63 → ¬ (offset + i + 4 ≤ buf.length) →
      bitFieldLoop bf buf offset bound fuel i res = some res := by
  intro n
  induction n with
  | zero =>
    intro fuel i res hb _ _ _
    have hlt : ¬ i < bound := by rw [hb]; simp
    cases fuel with
    | zero => simp [bitFieldLoop]
    | succ fuel => unfold bitFieldLoop; rw [if_neg hlt]
  | succ n ih =>
    intro fuel i res hb h0 hfit h
    cases fuel with
    | zero => simp [bitFieldLoop]
    | succ fuel =>
      unfold bitFieldLoop
      rw [if_pos (by omega), goInt_of_range (x := offset + i) (by omega) (by omega),
        goInt_of_range (x := offset + i + 4) (by omega) (by omega), if_neg h]
      exact ih fuel (i + 4) res (by omega) (by omega) hfit (by omega)

/-- The bitfield loop while no offset it visits wraps: one element for each of
the next `n` words that is whole in the buffer. -/
theorem bitFieldLoop_eq (bf : List Byte → String) (buf : List Byte) (offset bound : Int) :
    ∀ (n fuel : Nat) (i : Int) (res : List String), n ≤ fuel → bound = i + (n : Int) * 4 →
      0 ≤ offset + i → offset + bound < 2 ^ 63 →
      bitFieldLoop bf buf offset bound fuel i res
        = some (res ++ (List.range (min n ((buf.length - (offset + i).toNat) / 4))).map
            (fun j => bf ((buf.drop ((offset + i).toNat + j * 4)).take 4))) := by
  intro n
  induction n with
  | zero =>
    intro fuel i res _ hb _ _
    have hlt : ¬ i < bound := by rw [hb]; simp
    cases fuel with
    | zero => simp [bitFieldLoop]
    | succ fuel => unfold bitFieldLoop; rw [if_neg hlt]; simp
  | succ n ih =>
    intro fuel i res hf hb h0 hfit
    obtain ⟨fuel, rfl⟩ : ∃ f, fuel = f + 1 := ⟨fuel - 1, by omega⟩
    by_cases h1 : offset + i + 4 ≤ buf.length
    · unfold bitFieldLoop
      rw [if_pos (by omega), goInt_of_range (x := offset + i) (by omega) (by omega),
        goInt_of_range (x := offset + i + 4) (by omega) (by omega), if_pos h1,
        slice_eq_some h0 (by omega) h1]
      simp only []
      rw [ih fuel (i + 4) _ (by omega) (by omega) (by omega) hfit]
      have h3 : (offset + (i + 4)).toNat = (offset + i).toNat + 4 := by omega
      have h4 : (offset + i + 4 - (offset + i)).toNat = 4 := by omega
      have h5 : min (n + 1) ((buf.length - (offset + i).toNat) / 4)
          = min n ((buf.length - ((offset + i).toNat + 4)) / 4) + 1 := by omega
      rw [h3, h4, h5, List.range_succ_eq_map]
      simp only [List.map_cons, List.map_map, Function.comp_def, List.append_assoc,
        List.singleton_append, Nat.zero_mul, Nat.add_zero, Option.some.injEq,
        List.append_cancel_left_eq, List.cons.injEq, true_and]
      apply List.map_congr_left
      intro a _
      congr 3
      rw [Nat.succ_mul]
      omega
    · rw [bitFieldLoop_skip bf buf offset bound (n + 1) _ i res hb h0 hfit h1]
      have h5 : min (n + 1) ((buf.length - (offset + i).toNat) / 4) = 0 := by omega
      rw [h5]
      simp

/-- The scalar decode of each raw type, for an offset that is not negative and,
when the type is wider than a byte, a span whose end a Go `int` holds: the
value read at the offset when the span is inside the buffer, the zero value of
the type otherwise. -/
theorem readVarValueFast_scalar (bf : List Byte → String) (buf : List Byte) (vh : VarHeader)
    (hcount : ¬ vh.Count > 1) (hoff : 0 ≤ vh.Offset)
    (hfit : 1 < width vh.Rtype → vh.Offset + width vh.Rtype < 2 ^ 63) :
    (vh.Rtype = 0 → readVarValueFast bf buf vh
        = some (if vh.Offset < buf.length then Value.u8 (buf.getD vh.Offset.toNat 0)
            else Value.u8 0)) ∧
    (vh.Rtype = 1 → readVarValueFast bf buf vh
        = some (if vh.Offset < buf.length
            then Value.bool (decide ((buf.getD vh.Offset.toNat 0).val > 0))
            else Value.bool false)) ∧
    (vh.Rtype = 2 → readVarValueFast bf buf vh
        = some (if vh.Offset + 4 ≤ buf.length
            then Value.int (fastByte4ToInt (buf.drop vh.Offset.toNat)) else Value.int 0)) ∧
    (vh.Rtype = 3 → readVarValueFast bf buf vh
        = some (if vh.Offset + 4 ≤ buf.length
            then Value.str (bf ((buf.drop vh.Offset.toNat).take 4)) else Value.str "0x0")) ∧
    (vh.Rtype = 4 → readVarValueFast bf buf vh
        = some (if vh.Offset + 4 ≤ buf.length
            then Value.f32 (fastByte4ToFloat (buf.drop vh.Offset.toNat)) else Value.f32 0)) ∧
    (vh.Rtype = 5 → readVarValueFast bf buf vh
        = some (if vh.Offset + 8 ≤ buf.length
            then Value.f64 (fastByte8ToFloat (buf.drop vh.Offset.toNat)) else Value.f64 0)) := by
  refine ⟨?_, ?_, ?_, ?_, ?_, ?_⟩ <;> intro h <;>
    simp only [h, width] at hfit <;> norm_num at hfit <;>
    simp only [readVarValueFast, hcount, h, if_false] <;> norm_num
  · by_cases g : vh.Offset < buf.length
    · rw [if_pos g, if_pos g, index_eq_some hoff g]; simp [List.getD]
    · rw [if_neg g, if_neg g]
  · by_cases g : vh.Offset < buf.length
    · rw [if_pos g, if_pos g, index_eq_some hoff g]; simp [List.getD]
    · rw [if_neg g, if_neg g]
  · rw [goInt_of_range (x := vh.Offset + 4) (by omega) (by omega)]
    by_cases g : vh.Offset + 4 ≤ buf.length
    · rw [if_pos g, if_pos g, sliceFrom_eq_some hoff (by omega)]; rfl
    · rw [if_neg g, if_neg g]
  · rw [goInt_of_range (x := vh.Offset + 4) (by omega) (by omega)]
    by_cases g : vh.Offset + 4 ≤ buf.length
    · rw [if_pos g, if_pos g, slice_eq_some hoff (by omega) g]
      simp
    · rw [if_neg g, if_neg g]
  · rw [goInt_of_range (x := vh.Offset + 4) (by omega) (by omega)]
    by_cases g : vh.Offset + 4 ≤ buf.length
    · rw [if_pos g, if_pos g, sliceFrom_eq_some hoff (by omega)]; rfl
    · rw [if_neg g, if_neg g]
  · rw [goInt_of_range (x := vh.Offset + 8) (by omega) (by omega)]
    by_cases g : vh.Offset + 8 ≤ buf.length
    · rw [if_pos g, if_pos g, sliceFrom_eq_some hoff (by omega)]; rfl
    · rw [if_neg g, if_neg g]

/-- The array decode of each raw type, for an offset that is not negative and
a span whose end a Go `int` holds.  U8, I32, F32 and F64 give the `count`
elements when the span is inside the buffer and an empty array otherwise; Bool
gives one element for each of the first `count` bytes the buffer has from the
offset on, BitfieldString one for each of the first `count` words that is
whole in the buffer. -/
theorem readVarValueFast_array (bf : List Byte → String) (buf : List Byte) (vh : VarHeader)
    (hcount : vh.Count > 1) (hoff : 0 ≤ vh.Offset)
    (hfit : vh.Offset + vh.Count * width vh.Rtype < 2 ^ 63) :
    (vh.Rtype = 0 → readVarValueFast bf buf vh
        = some (if vh.Offset + vh.Count ≤ buf.length
            then Value.u8s ((buf.drop vh.Offset.toNat).take vh.Count.toNat)
            else Value.u8s [])) ∧
    (vh.Rtype = 1 → readVarValueFast bf buf vh
        = some (Value.bools (((buf.drop vh.Offset.toNat).take vh.Count.toNat).map
            (fun b => decide (b.val > 0))))) ∧
    (vh.Rtype = 2 → readVarValueFast bf buf vh
        = some (if vh.Offset + vh.Count * 4 ≤ buf.length
            then Value.ints ((List.range vh.Count.toNat).map
              (fun j => fastByte4ToInt (buf.drop (vh.Offset.toNat + j * 4))))
            else Value.ints [])) ∧
    (vh.Rtype = 3 → readVarValueFast bf buf vh
        = some (Value.strs
            ((List.range (min vh.Count.toNat ((buf.length - vh.Offset.toNat) / 4))).map
              (fun j => bf ((buf.drop (vh.Offset.toNat + j * 4)).take 4))))) ∧
    (vh.Rtype = 4 → readVarValueFast bf buf vh
        = some (if vh.Offset + vh.Count * 4 ≤ buf.length
            then Value.f32s ((List.range vh.Count.toNat).map
              (fun j => fastByte4ToFloat (buf.drop (vh.Offset.toNat + j * 4))))
            else Value.f32s [])) ∧
    (vh.Rtype = 5 → readVarValueFast bf buf vh
        = some (if vh.Offset + vh.Count * 8 ≤ buf.length
            then Value.f64s ((List.range vh.Count.toNat).map
              (fun j => fastByte8ToFloat (buf.drop (vh.Offset.toNat + j * 8))))
            else Value.f64s [])) := by
  refine ⟨?_, ?_, ?_, ?_, ?_, ?_⟩ <;> intro h <;>
    simp only [h, width] at hfit <;> norm_num at hfit <;>
    simp only [readVarValueFast, hcount, h, if_true] <;> norm_num
  · rw [goInt_of_range (x := vh.Offset + vh.Count) (by omega) (by omega)]
    by_cases g : vh.Offset + vh.Count ≤ buf.length
    · rw [if_pos g, if_pos g, slice_eq_some hoff (by omega) g]
      simp
    · rw [if_neg g, if_neg g]
  · rw [boolLoop_eq buf vh.Offset _ 0 [] (by omega) (by omega)]
    simp
  · rw [goInt_of_range (x := vh.Count * 4) (by omega) (by omega),
      goInt_of_range (x := vh.Offset + vh.Count * 4) (by omega) (by omega)]
    by_cases g : vh.Offset + vh.Count * 4 ≤ buf.length
    · have hc := convLoop_eq fastByte4ToInt 4 (by decide) buf vh.Offset (vh.Count * 4)
        vh.Count.toNat (vh.Count * 4).toNat 0 [] (by omega) (by omega) (by omega) g (by omega)
      rw [show ((4 : Nat) : Int) = 4 from rfl] at hc
      rw [if_pos g, if_pos g, hc]
      simp
    · rw [if_neg g, if_neg g]
  · rw [goInt_of_range (x := vh.Count * 4) (by omega) (by omega),
      bitFieldLoop_eq bf buf vh.Offset (vh.Count * 4) vh.Count.toNat (vh.Count * 4).toNat 0 []
        (by omega) (by omega) (by omega) (by omega)]
    simp
  · rw [goInt_of_range (x := vh.Count * 4) (by omega) (by omega),
      goInt_of_range (x := vh.Offset + vh.Count * 4) (by omega) (by omega)]
    by_cases g : vh.Offset + vh.Count * 4 ≤ buf.length
    · have hc := convLoop_eq fastByte4ToFloat 4 (by decide) buf vh.Offset (vh.Count * 4)
        vh.Count.toNat (vh.Count * 4).toNat 0 [] (by omega) (by omega) (by omega) g (by omega)
      rw [show ((4 : Nat) : Int) = 4 from rfl] at hc
      rw [if_pos g, if_pos g, hc]
      simp
    · rw [if_neg g, if_neg g]
  · rw [goInt_of_range (x := vh.Count * 8) (by omega) (by omega),
      goInt_of_range (x := vh.Offset + vh.Count * 8) (by omega) (by omega)]
    by_cases g : vh.Offset + vh.Count * 8 ≤ buf.length
    · have hc := convLoop_eq fastByte8ToFloat 8 (by decide) buf vh.Offset (vh.Count * 8)
        vh.Count.toNat (vh.Count * 8).toNat 0 [] (by omega) (by omega) (by omega) g (by omega)
      rw [show ((8 : Nat) : Int) = 8 from rfl] at hc
      rw [if_pos g, if_pos g, hc]
      simp
    · rw [if_neg g, if_neg g]

/-- The product `count*4` wraps: an int array of count `2^62 + 1` at offset 0 of
an 8-byte buffer passes the guard with `count*4 = 4` and is decoded as the
one-element array of the first word, and an int scalar at offset `2^63 - 1`
passes the guard with `offset+4 < 0`. -/
theorem readVarValueFast_wraps :
    goInt ((2 ^ 62 + 1) * 4) = 4 ∧
      readVarValueFast sampleBitField [5, 0, 0, 0, 0, 0, 0, 0] ⟨2, 0, 2 ^ 62 + 1⟩
        = some (Value.ints [5]) ∧
      goInt (2 ^ 63 - 1 + 4) < 0 ∧
      readVarValueFast sampleBitField [5, 0, 0, 0, 0, 0, 0, 0] ⟨2, 2 ^ 63 - 1, 1⟩ = none := by
  decide

theorem rtype_cases {r : Int} (h : 0 ≤ r ∧ r ≤ 5) :
    r = 0 ∨ r = 1 ∨ r = 2 ∨ r = 3 ∨ r = 4 ∨ r = 5 := by omega

/-- The decoder does not panic on a descriptor whose offset is not negative and
whose span ends at an address a Go `int` holds. -/
theorem readVarValueFast_isSome (bf : List Byte → String) (buf : List Byte) (vh : VarHeader)
    (hoff : 0 ≤ vh.Offset) (hfit : vh.spanFits) : ∃ v, readVarValueFast bf buf vh = some v := by
  unfold VarHeader.spanFits at hfit
  by_cases hty : 0 ≤ vh.Rtype ∧ vh.Rtype ≤ 5
  · by_cases hc : vh.Count > 1
    · rw [max_eq_left (by omega)] at hfit
      obtain ⟨a0, a1, a2, a3, a4, a5⟩ := readVarValueFast_array bf buf vh hc hoff hfit
      rcases rtype_cases hty with h | h | h | h | h | h
      · exact ⟨_, a0 h⟩
      · exact ⟨_, a1 h⟩
      · exact ⟨_, a2 h⟩
      · exact ⟨_, a3 h⟩
      · exact ⟨_, a4 h⟩
      · exact ⟨_, a5 h⟩
    · rw [max_eq_right (by omega), one_mul] at hfit
      obtain ⟨a0, a1, a2, a3, a4, a5⟩ :=
        readVarValueFast_scalar bf buf vh hc hoff (fun _ => hfit)
      rcases rtype_cases hty with h | h | h | h | h | h
      · exact ⟨_, a0 h⟩
      · exact ⟨_, a1 h⟩
      · exact ⟨_, a2 h⟩
      · exact ⟨_, a3 h⟩
      · exact ⟨_, a4 h⟩
      · exact ⟨_, a5 h⟩
  · have n0 : vh.Rtype ≠ 0 := by omega
    have n1 : vh.Rtype ≠ 1 := by omega
    have n2 : vh.Rtype ≠ 2 := by omega
    have n3 : vh.Rtype ≠ 3 := by omega
    have n4 : vh.Rtype ≠ 4 := by omega
    have n5 : vh.Rtype ≠ 5 := by omega
    simp [readVarValueFast, n0, n1, n2, n3, n4, n5]

/-! ## The parser -/

theorem copyInto_length (dst src : List Byte) : (copyInto dst src).length = dst.length := by
  simp [copyInto]
  omega

theorem lookupEntry_mem {β : Type} (k : String) (l : List (String × β)) (v : β)
    (h : lookupEntry k l = some v) : (k, v) ∈ l := by
  induction l with
  | nil => simp [lookupEntry] at h
  | cons e r ih =>
    obtain ⟨k', v'⟩ := e
    unfold lookupEntry at h
    split_ifs at h with hk
    · simp at h
      simp [hk, h]
    · exact List.mem_cons_of_mem _ (ih h)

theorem resolveWhitelist_spec (vars : List (String × VarHeader)) (P : VarHeader → Prop)
    (hP : ∀ e ∈ vars, P e.2) :
    ∀ (wl : List String) (acc : List VarHeader × List String),
      (∀ vh ∈ acc.1, P vh) → acc.1.length = acc.2.length →
      (∀ vh ∈ (resolveWhitelist vars wl acc).1, P vh) ∧
        (resolveWhitelist vars wl acc).1.length = (resolveWhitelist vars wl acc).2.length := by
  intro wl
  induction wl with
  | nil => intro acc h1 h2; exact ⟨h1, h2⟩
  | cons name rest ih =>
    intro acc h1 h2
    obtain ⟨vhs, names⟩ := acc
    unfold resolveWhitelist
    cases hl : lookupEntry name vars with
    | none => exact ih _ h1 h2
    | some vh =>
      apply ih
      · intro x hx
        simp only [List.mem_append, List.mem_singleton] at hx
        rcases hx with hx | hx
        · exact h1 x hx
        · rw [hx]; exact hP _ (lookupEntry_mem _ _ _ hl)
      · simp at h2 ⊢
        exact h2

theorem fillTick_isSome (bf : List Byte → String) (buf : List Byte) (varNames : List String) :
    ∀ (vhs : List VarHeader) (i : Nat) (t : Tick),
      (∀ vh ∈ vhs, 0 ≤ vh.Offset ∧ vh.spanFits) → i + vhs.length ≤ varNames.length →
      ∃ t', fillTick bf buf varNames vhs i t = some t' := by
  intro vhs
  induction vhs with
  | nil => intro i t _ _; exact ⟨t, rfl⟩
  | cons vh rest ih =>
    intro i t h1 h2
    simp only [List.length_cons] at h2
    have hi : i < varNames.length := by omega
    obtain ⟨v, hv⟩ := readVarValueFast_isSome bf buf vh (h1 vh (List.mem_cons_self _ _)).1
      (h1 vh (List.mem_cons_self _ _)).2
    unfold fillTick
    rw [List.getElem?_eq_getElem hi, hv]
    exact ih (i + 1) _ (fun x hx => h1 x (List.mem_cons_of_mem _ hx)) (by omega)

theorem SameConfig.refl (p : Parser) : SameConfig p p := ⟨rfl, rfl, rfl, rfl, rfl⟩

theorem SameConfig.trans {p q r : Parser} (h1 : SameConfig p q) (h2 : SameConfig q r) :
    SameConfig p r :=
  ⟨h2.reader.trans h1.reader, h2.header.trans h1.header, h2.varHeaders.trans h1.varHeaders,
    h2.varNames.trans h1.varNames, h2.bufLen.trans h1.bufLen⟩

theorem read_sameConfig (p : Parser) (start : Int) :
    SameConfig p (p.read start).1 ∧ (p.read start).1.current = p.current :=
  ⟨⟨rfl, rfl, rfl, rfl, copyInto_length _ _⟩, rfl⟩

theorem read_ok_congr {p q : Parser} (h : SameConfig p q) (start : Int) :
    (q.read start).2 = (p.read start).2 := by
  simp [Parser.read, h.reader, h.bufLen]

theorem wellFormed_congr {p q : Parser} (h : SameConfig p q) (hp : p.wellFormed) :
    q.wellFormed := by
  unfold Parser.wellFormed at *
  rw [h.varHeaders, h.varNames]
  exact hp

theorem readVarsFromBuffer_ok (bf : List Byte → String) (p : Parser) (buf : List Byte)
    (hp : p.wellFormed) :
    ∃ t, p.readVarsFromBuffer bf buf = some ({ p with tickPool := t }, t) := by
  obtain ⟨t, ht⟩ := fillTick_isSome bf buf p.varNames p.varHeaders 0 Tick.empty hp.1
    (by rw [hp.2]; omega)
  exact ⟨t, by simp [Parser.readVarsFromBuffer, ht]⟩

theorem Next_fail (bf : List Byte → String) (p : Parser)
    (h : (p.read (p.recordOffset p.current)).2 = false) :
    ∃ p', p.Next bf = some (p', none, false) ∧ SameConfig p p' ∧ p'.current = p.current := by
  refine ⟨(p.read (p.recordOffset p.current)).1, ?_, (read_sameConfig _ _).1, rfl⟩
  unfold Parser.recordOffset at h
  simp only [Parser.Next, h, Bool.not_false, if_true]
  rfl

theorem Next_ok (bf : List Byte → String) (p : Parser) (hp : p.wellFormed)
    (h : (p.read (p.recordOffset p.current)).2 = true) :
    ∃ p' t, p.Next bf = some (p', some t, (p.read (p.recordOffset (p.current + 1))).2) ∧
      SameConfig p p' ∧ p'.current = p.current + 1 := by
  have hc1 := read_sameConfig p (p.recordOffset p.current)
  set p1 := (p.read (p.recordOffset p.current)).1 with hp1
  have hc2 := read_sameConfig p1 (p1.recordOffset (p1.current + 1))
  set p2 := (p1.read (p1.recordOffset (p1.current + 1))).1 with hp2
  have hc12 := hc1.1.trans hc2.1
  obtain ⟨t, ht⟩ := readVarsFromBuffer_ok bf p2 p2.bufferPool (wellFormed_congr hc12 hp)
  refine ⟨{ p2 with tickPool := t, current := p2.current + 1 }, t, ?_, ?_, ?_⟩
  · have e1 : (p1.read (p1.recordOffset (p1.current + 1))).2
        = (p.read (p.recordOffset (p.current + 1))).2 := by
      rw [read_ok_congr hc1.1]
      simp [Parser.recordOffset, hc1.1.header, hc1.2]
    unfold Parser.recordOffset at h hp1 hp2 e1
    simp only [Parser.Next, h, Bool.not_true, Bool.false_eq_true, if_false, ← hp1, ← hp2, ht, e1]
    rfl
  · exact ⟨hc12.reader, hc12.header, hc12.varHeaders, hc12.varNames, hc12.bufLen⟩
  · show p2.current + 1 = p.current + 1
    rw [hc2.2, hc1.2]


theorem mmap_read_ok (data : List Byte) (p : Parser)
    (hr : p.reader = MmapReader.toReader ⟨data⟩) (start : Int) :
    (p.read start).2 = decide (0 ≤ start ∧ start < data.length) := by
  simp only [Parser.read, hr, MmapReader.toReader, MmapReader.ReadAt]
  by_cases h : start < 0 ∨ start ≥ data.length
  · rw [if_pos h]
    simp
    omega
  · rw [if_neg h]
    simp
    omega

theorem NewParser_spec (reader : Reader) (header : Header) (whitelist : List String)
    (hlen : 0 ≤ header.TelemetryHeader.BufLen) :
    ∃ p, NewParser reader header whitelist = some p ∧ p.reader = reader ∧ p.header = header ∧
      p.current = 1 ∧ p.whitelist = whitelist ∧
      p.varHeaders = (resolveWhitelist header.VarHeader whitelist ([], [])).1 ∧
      p.varNames = (resolveWhitelist header.VarHeader whitelist ([], [])).2 := by
  have h : ¬ header.TelemetryHeader.BufLen < 0 := by omega
  simp only [NewParser, if_neg h]
  exact ⟨_, rfl, rfl, rfl, rfl, rfl, rfl, rfl⟩

theorem NewParser_wellFormed (reader : Reader) (header : Header) (whitelist : List String)
    (p : Parser) (hp : NewParser reader header whitelist = some p)
    (hdir : offsetsNonneg header.VarHeader) (hfit : spansRepresentable header.VarHeader) :
    p.wellFormed := by
  unfold NewParser at hp
  split_ifs at hp
  simp only [Option.some.injEq] at hp
  subst hp
  exact resolveWhitelist_spec header.VarHeader (fun vh => 0 ≤ vh.Offset ∧ vh.spanFits)
    (fun e he => ⟨hdir e he, hfit e he⟩) whitelist ([], []) (by simp) rfl

/-- Over a source holding records `0..N`, the reads of records `1..N` succeed
and the read of record `N+1` fails. -/
theorem holdsRecords_read (data : List Byte) (p : Parser) (N : Nat)
    (hr : p.reader = MmapReader.toReader ⟨data⟩)
    (hrec : holdsRecords data p.header.TelemetryHeader N) (c : Nat) (hc : 1 ≤ c) :
    (p.read (p.recordOffset c)).2 = decide (c ≤ N) := by
  rw [mmap_read_ok data p hr]
  obtain ⟨h0, h1, h2⟩ := hrec
  unfold Parser.recordOffset
  have h3 : (0 : Int) ≤ c * p.header.TelemetryHeader.BufLen := by positivity
  by_cases h : c ≤ N
  · have h4 : ((c : Int) + 1) * p.header.TelemetryHeader.BufLen
        ≤ ((N : Int) + 1) * p.header.TelemetryHeader.BufLen := by
      apply mul_le_mul_of_nonneg_right _ (le_of_lt h1)
      omega
    simp only [h, decide_True, decide_eq_true_eq]
    constructor
    · omega
    · rw [h2]; nlinarith
  · have h4 : ((N : Int) + 1) * p.header.TelemetryHeader.BufLen
        ≤ (c : Int) * p.header.TelemetryHeader.BufLen := by
      apply mul_le_mul_of_nonneg_right _ (le_of_lt h1)
      omega
    simp only [h, decide_False, decide_eq_false_iff_not, not_and, not_lt]
    intro _
    rw [h2]; omega

theorem afterNext_records (bf : List Byte → String) (data : List Byte) (p : Parser) (N : Nat)
    (hr : p.reader = MmapReader.toReader ⟨data⟩)
    (hrec : holdsRecords data p.header.TelemetryHeader N) (hp : p.wellFormed)
    (hcur : p.current = 1) :
    ∀ k, k ≤ N → ∃ q, p.afterNext bf k = some q ∧ SameConfig p q ∧ q.current = 1 + k := by
  intro k
  induction k with
  | zero => intro _; exact ⟨p, rfl, SameConfig.refl p, by simp [hcur]⟩
  | succ k ih =>
    intro hk
    obtain ⟨q, hq, hc, hcur'⟩ := ih (by omega)
    have hread := holdsRecords_read data q N (hc.reader.trans hr) (by rw [hc.header]; exact hrec)
      (1 + k) (by omega)
    have h1k : ((1 + k : Nat) : Int) = q.current := by rw [hcur']; push_cast; rfl
    rw [h1k] at hread
    simp only [show 1 + k ≤ N from by omega, decide_True] at hread
    obtain ⟨q', t, hn, hc', hcur''⟩ := Next_ok bf q (wellFormed_congr hc hp) hread
    refine ⟨q', ?_, hc.trans hc', ?_⟩
    · simp [Parser.afterNext, hq, hn]
    · rw [hcur'', hcur']; push_cast; ring

theorem nthNext_records (bf : List Byte → String) (data : List Byte) (p : Parser) (N : Nat)
    (hr : p.reader = MmapReader.toReader ⟨data⟩)
    (hrec : holdsRecords data p.header.TelemetryHeader N) (hp : p.wellFormed)
    (hcur : p.current = 1) (k : Nat) (hk1 : 1 ≤ k) (hkN : k ≤ N) :
    ∃ q q' t, p.afterNext bf (k - 1) = some q ∧ q.Next bf = some (q', some t, decide (k < N)) ∧
      p.afterNext bf k = some q' ∧ p.nthNext bf k = some (some t, decide (k < N)) := by
  obtain ⟨q, hq, hc, hcur'⟩ := afterNext_records bf data p N hr hrec hp hcur (k - 1) (by omega)
  have hqr := hc.reader.trans hr
  have hqrec : holdsRecords data q.header.TelemetryHeader N := by rw [hc.header]; exact hrec
  have hread := holdsRecords_read data q N hqr hqrec k hk1
  have hread2 := holdsRecords_read data q N hqr hqrec (k + 1) (by omega)
  have hk : ((k : Nat) : Int) = q.current := by rw [hcur']; omega
  have hk' : ((k + 1 : Nat) : Int) = q.current + 1 := by rw [hcur']; omega
  rw [hk] at hread
  rw [hk'] at hread2
  simp only [hkN, decide_True] at hread
  obtain ⟨q', t, hn, _, _⟩ := Next_ok bf q (wellFormed_congr hc hp) hread
  rw [hread2] at hn
  have hdec : decide (k + 1 ≤ N) = decide (k < N) := by
    apply decide_eq_decide.mpr
    omega
  rw [hdec] at hn
  refine ⟨q, q', t, hq, hn, ?_, ?_⟩
  · obtain ⟨j, rfl⟩ : ∃ j, k = j + 1 := ⟨k - 1, by omega⟩
    simp only [Nat.add_sub_cancel] at hq
    simp [Parser.afterNext, hq, hn]
  · simp [Parser.nthNext, hq, hn]


theorem runProcessors_ok (whitelist : List String) (tick : Option Tick) (hasNext : Bool)
    (session : Nat) :
    ∀ (procs : List Processor) (i : Nat) (calls : List Call),
      (∀ proc ∈ procs, ∀ cs t b s, proc.Process cs t b s = none) →
      runProcessors whitelist tick hasNext session procs i calls
        = (none, calls ++ recordCalls whitelist session tick hasNext procs i) := by
  intro procs
  induction procs with
  | nil => intro i calls _; simp [runProcessors, recordCalls]
  | cons proc rest ih =>
    intro i calls hok
    unfold runProcessors
    simp only [hok proc (List.mem_cons_self _ _)]
    rw [ih (i + 1) _ (fun q hq => hok q (List.mem_cons_of_mem _ hq))]
    simp [recordCalls, inputFor]

theorem callsOf_recordCalls (whitelist : List String) (session : Nat) (tick : Option Tick)
    (hasNext : Bool) (i : Nat) :
    ∀ (procs : List Processor) (k : Nat),
      callsOf i (recordCalls whitelist session tick hasNext procs k)
        = if k ≤ i then
            (procs[i - k]?).toList.map
              (fun proc => ⟨i, inputFor whitelist proc tick, hasNext, session⟩)
          else [] := by
  intro procs
  induction procs with
  | nil => intro k; simp [recordCalls, callsOf]
  | cons proc rest ih =>
    intro k
    have ih' := ih (k + 1)
    unfold callsOf at ih' ⊢
    unfold recordCalls
    rw [List.filter_cons, ih']
    rcases Nat.lt_trichotomy k i with h | h | h
    · have h1 : k ≤ i := by omega
      have h2 : k + 1 ≤ i := by omega
      have h3 : i - k = (i - (k + 1)) + 1 := by omega
      have h4 : ¬ k = i := by omega
      simp only [h1, h2, h4, if_true, decide_False, Bool.false_eq_true, if_false]
      rw [h3, List.getElem?_cons_succ]
    · subst h
      simp
    · have h1 : ¬ k ≤ i := by omega
      have h2 : ¬ k + 1 ≤ i := by omega
      have h4 : ¬ k = i := by omega
      simp [h1, h2, h4]

theorem callsOf_expectedCalls (i : Nat) (mk : Nat → List Call) (one : Nat → Call)
    (h : ∀ c, callsOf i (mk c) = [one c]) :
    ∀ (m c : Nat), callsOf i (expectedCalls mk c m) = (List.range m).map (fun j => one (c + j)) := by
  intro m
  induction m with
  | zero => intro c; simp [expectedCalls, callsOf]
  | succ m ih =>
    intro c
    have ih' := ih (c + 1)
    unfold callsOf at ih' h ⊢
    unfold expectedCalls
    rw [List.filter_append, ih', h, List.range_succ_eq_map]
    simp only [List.map_cons, List.map_map, Function.comp_def, Nat.add_zero,
      List.singleton_append, List.cons.injEq, true_and]
    apply List.map_congr_left
    intro a _
    congr 1
    omega

theorem sentinel32_range (w : List Byte) :
    -1 ≤ sentinel32 (le32 w) ∧ sentinel32 (le32 w) ≤ 4294967294 := by
  have h := le32_lt w
  unfold sentinel32
  split_ifs <;> omega

theorem fastByte4ToInt_eq (w : List Byte) (h : 4 ≤ w.length) :
    fastByte4ToInt w = sentinel32 (le32 w) := by
  have h1 : ¬ w.length < 4 := by omega
  simp only [fastByte4ToInt, sentinel32, if_neg h1]
  split_ifs
  · rfl
  · exact goInt_of_lt _ (le32_lt w)

/-- In-bounds int scalar: the sentinel reading of the word at the offset.  A
sum `offset+4` that wraps is negative, so the guard passes in any case. -/
theorem readVarValueFast_int_scalar (bf : List Byte → String) (buf : List Byte)
    (vh : VarHeader) (hty : vh.Rtype = 2) (hcount : ¬ vh.Count > 1) (hoff : 0 ≤ vh.Offset)
    (hin : vh.Offset + 4 ≤ buf.length) :
    readVarValueFast bf buf vh
      = some (Value.int (sentinel32 (le32 (buf.drop vh.Offset.toNat)))) := by
  have hg : goInt (vh.Offset + 4) ≤ buf.length := le_trans (goInt_le_self (by omega)) hin
  simp only [readVarValueFast, hcount, hty, hg, if_true, if_false]
  simp only [show ((2 : Int) = 0) = False from by simp,
    show ((2 : Int) = 1) = False from by simp, if_false]
  rw [sliceFrom_eq_some hoff (by omega), Option.map_some', fastByte4ToInt_eq]
  simp
  omega

/-- In-bounds int array of a buffer shorter than `2^63` bytes: the sentinel
readings of the `count` words from the offset on. -/
theorem readVarValueFast_int_array (bf : List Byte → String) (buf : List Byte)
    (vh : VarHeader) (hty : vh.Rtype = 2) (hcount : vh.Count > 1) (hoff : 0 ≤ vh.Offset)
    (hin : vh.Offset + vh.Count * 4 ≤ buf.length) (hlen : (buf.length : Int) < 2 ^ 63) :
    readVarValueFast bf buf vh
      = some (Value.ints ((List.range vh.Count.toNat).map
          (fun j => sentinel32 (le32 (buf.drop (vh.Offset.toNat + j * 4)))))) := by
  have hfit : vh.Offset + vh.Count * width vh.Rtype < 2 ^ 63 := by
    simp only [hty, width]
    norm_num
    omega
  rw [(readVarValueFast_array bf buf vh hcount hoff hfit).2.2.1 hty, if_pos hin]
  simp only [Option.some.injEq, Value.ints.injEq]
  apply List.map_congr_left
  intro j hj
  apply fastByte4ToInt_eq
  have hj2 := List.mem_range.mp hj
  simp only [List.length_drop]
  have : (j : Int) < vh.Count := by omega
  have : vh.Offset.toNat + j * 4 + 4 ≤ buf.length := by omega
  omega


/-! ## Claims -/

/-- C1 (evaluation at the failing input): over a source holding records 0, 1
and 2, the first call to `Next` on a fresh parser returns the `Gear` of
record 2, while the bytes of record 1 decode to another value: the second
`read` of `Next` has overwritten the buffer before it is decoded.  The second
call returns the `Gear` of record 2 again, so record 1 is never delivered. -/
theorem Next_first_call_decodes_following_record :
    (NewParser (MmapReader.toReader ⟨twoRecords⟩) sampleHeader ["Gear"]).bind
        (fun p => p.nthNext sampleBitField 1)
      = some (some ⟨[("Gear", Value.int 2)]⟩, true) ∧
    (NewParser (MmapReader.toReader ⟨twoRecords⟩) sampleHeader ["Gear"]).bind
        (fun p => p.nthNext sampleBitField 2)
      = some (some ⟨[("Gear", Value.int 2)]⟩, false) ∧
    readVarValueFast sampleBitField (recordBytes twoRecords sampleHeader.TelemetryHeader 1)
        ⟨2, 4, 1⟩
      = some (Value.int 1) ∧
    readVarValueFast sampleBitField (recordBytes twoRecords sampleHeader.TelemetryHeader 2)
        ⟨2, 4, 1⟩
      = some (Value.int 2) := by
  decide

/-- C2: over a source that holds exactly the records `0..N`, with a directory
whose offsets are not negative and whose spans end at addresses a Go `int`
holds, the `k`-th call to `Next` on a fresh parser returns a tick and reports
`hasMore = true` for `k < N` and `hasMore = false` for `k = N`. -/
theorem Next_hasMore_until_last_record (bf : List Byte → String) (data : List Byte)
    (header : Header) (whitelist : List String) (N : Nat)
    (hrec : holdsRecords data header.TelemetryHeader N)
    (hdir : offsetsNonneg header.VarHeader) (hfit : spansRepresentable header.VarHeader) :
    ∃ p, NewParser (MmapReader.toReader ⟨data⟩) header whitelist = some p ∧
      ∀ k, 1 ≤ k → k ≤ N → ∃ t, p.nthNext bf k = some (some t, decide (k < N)) := by
  obtain ⟨p, hp, hr, hh, hcur, _⟩ :=
    NewParser_spec (MmapReader.toReader ⟨data⟩) header whitelist (le_of_lt hrec.2.1)
  refine ⟨p, hp, ?_⟩
  intro k hk1 hkN
  obtain ⟨_, _, t, _, _, _, h⟩ := nthNext_records bf data p N hr (by rw [hh]; exact hrec)
    (NewParser_wellFormed _ _ _ p hp hdir hfit) hcur k hk1 hkN
  exact ⟨t, h⟩

theorem sample_holdsRecords : holdsRecords threeRecords sampleHeader.TelemetryHeader 3 :=
  ⟨by decide, by decide, by decide⟩

theorem sample_offsetsNonneg : offsetsNonneg sampleHeader.VarHeader := by
  unfold offsetsNonneg
  decide

theorem sample_spansRepresentable : spansRepresentable sampleHeader.VarHeader := by
  intro e he
  simp only [sampleHeader, List.mem_cons, List.mem_singleton, List.not_mem_nil, or_false] at he
  rcases he with h | h <;> subst h <;> norm_num [VarHeader.spanFits, width]

/-- Witness of C2: the three-record sample. -/
theorem Next_hasMore_until_last_record_witness :
    holdsRecords threeRecords sampleHeader.TelemetryHeader 3 ∧
      offsetsNonneg sampleHeader.VarHeader ∧ spansRepresentable sampleHeader.VarHeader ∧
      ∃ p, NewParser (MmapReader.toReader ⟨threeRecords⟩) sampleHeader ["Gear"] = some p ∧
        ∀ k, 1 ≤ k → k ≤ 3 → ∃ t, p.nthNext sampleBitField k = some (some t, decide (k < 3)) :=
  ⟨sample_holdsRecords, sample_offsetsNonneg, sample_spansRepresentable,
    Next_hasMore_until_last_record sampleBitField threeRecords sampleHeader ["Gear"] 3
      sample_holdsRecords sample_offsetsNonneg sample_spansRepresentable⟩

theorem quiet_never_fails (wl₁ wl₂ : List String) :
    ∀ proc ∈ [quietProcessor wl₁, quietProcessor wl₂],
      ∀ (cs : List Call) (t : Option Tick) (b : Bool) (s : Nat), proc.Process cs t b s = none := by
  intro proc hproc cs t b s
  simp only [List.mem_cons, List.mem_singleton, List.not_mem_nil, or_false] at hproc
  rcases hproc with h | h <;> rw [h] <;> rfl

/-- C5 (evaluation at the failing input): with the directory `Speed`, `Gear`
and one valid record, a processor whose whitelist is empty, and likewise one
whose whitelist is the wildcard, is handed a tick that holds no field. -/
theorem process_wildcard_processor_gets_empty_tick :
    process sampleBitField 1 background ⟨MmapReader.toReader ⟨oneRecord⟩, sampleHeader⟩
        [quietProcessor []]
      = Outcome.returned none [⟨0, some ⟨[]⟩, false, 0⟩] ∧
    process sampleBitField 1 background ⟨MmapReader.toReader ⟨oneRecord⟩, sampleHeader⟩
        [quietProcessor ["*"]]
      = Outcome.returned none [⟨0, some ⟨[]⟩, false, 0⟩] ∧
    buildWhitelist sampleHeader.VarHeader [quietProcessor ["*"]] = ["Speed", "Gear"] := by
  decide

/-- C6 (evaluation at the failing input): a processor that asks for `Speed`
and for a name the directory does not have, next to one that asks for `Gear`,
is handed the whole decoded tick, `Gear` included, which is not in its
whitelist; so is a processor that asks for `Speed` twice. -/
theorem process_long_whitelist_gets_unfiltered_tick :
    process sampleBitField 1 background ⟨MmapReader.toReader ⟨oneRecord⟩, sampleHeader⟩
        [quietProcessor ["Speed", "Bogus"], quietProcessor ["Gear"]]
      = Outcome.returned none
          [⟨0, some ⟨[("Speed", Value.f32 1), ("Gear", Value.int 1)]⟩, false, 0⟩,
            ⟨1, some ⟨[("Gear", Value.int 1)]⟩, false, 0⟩] ∧
    process sampleBitField 1 background ⟨MmapReader.toReader ⟨oneRecord⟩, sampleHeader⟩
        [quietProcessor ["Speed", "Speed"], quietProcessor ["Gear"]]
      = Outcome.returned none
          [⟨0, some ⟨[("Speed", Value.f32 1), ("Gear", Value.int 1)]⟩, false, 0⟩,
            ⟨1, some ⟨[("Gear", Value.int 1)]⟩, false, 0⟩] ∧
    buildWhitelist sampleHeader.VarHeader
        [quietProcessor ["Speed", "Bogus"], quietProcessor ["Gear"]] = ["Speed", "Gear"] ∧
    "Gear" ∉ ["Speed", "Bogus"] ∧ "Gear" ∉ ["Speed", "Speed"] := by
  decide

/-- C7 (counterexample): an int scalar at offset `2^63 - 1`, which is not
negative, has a span that is not inside an 8-byte buffer; `offset+4` wraps to
the negative `int` `-2^63 + 3`, the guard `offset+4 <= len(buf)` passes, and
the slice `buf[offset:]` panics instead of the zero value being returned.  The
same happens to a float64 at offset `2^63 - 8`. -/
theorem readVarValueFast_scalar_wrapped_span_panics :
    (0 : Int) ≤ 2 ^ 63 - 1 ∧ (0 : Int) ≤ 2 ∧ (2 : Int) ≤ 5 ∧
      ¬ ((0 : Int) ≤ 2 ^ 63 - 1 ∧
        (2 : Int) ^ 63 - 1 + width 2 ≤ ([5, 0, 0, 0, 0, 0, 0, 0] : List Byte).length) ∧
      goInt (2 ^ 63 - 1 + 4) = -2 ^ 63 + 3 ∧
      readVarValueFast sampleBitField [5, 0, 0, 0, 0, 0, 0, 0] ⟨2, 2 ^ 63 - 1, 1⟩ = none ∧
      readVarValueFast sampleBitField [5, 0, 0, 0, 0, 0, 0, 0] ⟨2, 2 ^ 63 - 1, 1⟩
        ≠ some (zeroValue 2) ∧
      readVarValueFast sampleBitField [5, 0, 0, 0, 0, 0, 0, 0] ⟨5, 2 ^ 63 - 8, 1⟩ = none := by
  decide

/-- C7 (amended): for a scalar descriptor (count 1, offset not negative, one of
the six raw types) whose span `[offset, offset + width)` is not inside the
buffer and, for the four types wider than a byte, ends at an address a Go
`int` holds (`offset + width ≤ 2^63 - 1`), `readVarValueFast` returns the zero
value of the type. -/
theorem readVarValueFast_scalar_out_of_span (bf : List Byte → String) (buf : List Byte)
    (vh : VarHeader) (hcount : vh.Count = 1) (hoff : 0 ≤ vh.Offset)
    (hty : 0 ≤ vh.Rtype ∧ vh.Rtype ≤ 5)
    (hfit : 1 < width vh.Rtype → vh.Offset + width vh.Rtype < 2 ^ 63)
    (hspan : ¬ (0 ≤ vh.Offset ∧ vh.Offset + width vh.Rtype ≤ buf.length)) :
    readVarValueFast bf buf vh = some (zeroValue vh.Rtype) := by
  have hspan' : ¬ (vh.Offset + width vh.Rtype ≤ buf.length) := fun h => hspan ⟨hoff, h⟩
  obtain ⟨a0, a1, a2, a3, a4, a5⟩ :=
    readVarValueFast_scalar bf buf vh (by omega) hoff hfit
  rcases rtype_cases hty with h | h | h | h | h | h <;>
    simp only [h, width] at hspan' <;> norm_num at hspan'
  · rw [a0 h, if_neg (by omega), h]; rfl
  · rw [a1 h, if_neg (by omega), h]; rfl
  · rw [a2 h, if_neg (by omega), h]; rfl
  · rw [a3 h, if_neg (by omega), h]; rfl
  · rw [a4 h, if_neg (by omega), h]; rfl
  · rw [a5 h, if_neg (by omega), h]; rfl

/-- Witness of C7 (amended): an int at offset 0 of a two-byte buffer. -/
theorem readVarValueFast_scalar_out_of_span_witness :
    ¬ ((0 : Int) ≤ 0 ∧ (0 : Int) + width 2 ≤ ([1, 2] : List Byte).length) ∧
      readVarValueFast sampleBitField [1, 2] ⟨2, 0, 1⟩ = some (Value.int 0) :=
  ⟨by decide,
    readVarValueFast_scalar_out_of_span sampleBitField [1, 2] ⟨2, 0, 1⟩ rfl (by decide)
      (by decide) (fun _ => by norm_num [width]) (by decide)⟩

/-- C8 (evaluation at the failing input): a bool array of count 5 at offset 0
of a three-byte buffer has a span that extends past the end of the buffer, and
the decoder returns three elements, not an empty array; a bitfield array of
count 2 over five bytes likewise returns one element.  On the same condition
the U8, I32, F32 and F64 branches return an empty array. -/
theorem readVarValueFast_bool_array_not_empty :
    (1 : Int) < 5 ∧ (0 : Int) ≤ 0 ∧
      ¬ ((0 : Int) + 5 * width 1 ≤ ([7, 0, 1] : List Byte).length) ∧
      readVarValueFast sampleBitField [7, 0, 1] ⟨1, 0, 5⟩
        = some (Value.bools [true, false, true]) ∧
      readVarValueFast sampleBitField [7, 0, 1] ⟨1, 0, 5⟩ ≠ some (emptyArray 1) ∧
      ¬ ((0 : Int) + 2 * width 3 ≤ ([7, 0, 0, 0, 1] : List Byte).length) ∧
      readVarValueFast sampleBitField [7, 0, 0, 0, 1] ⟨3, 0, 2⟩
        = some (Value.strs [sampleBitField [7, 0, 0, 0]]) ∧
      readVarValueFast sampleBitField [7, 0, 0, 0, 1] ⟨3, 0, 2⟩ ≠ some (emptyArray 3) ∧
      readVarValueFast sampleBitField [7, 0, 1] ⟨0, 0, 5⟩ = some (Value.u8s []) ∧
      readVarValueFast sampleBitField [7, 0, 0, 0, 1] ⟨2, 0, 2⟩ = some (Value.ints []) ∧
      readVarValueFast sampleBitField [7, 0, 0, 0, 1] ⟨4, 0, 2⟩ = some (Value.f32s []) ∧
      readVarValueFast sampleBitField [7, 0, 0, 0, 1] ⟨5, 0, 2⟩ = some (Value.f64s []) := by
  decide

/-- C9 (counterexample): a U8 scalar at offset -1 passes the guard
`offset < len(buf)` and the read `buf[offset]` panics; a U8 array of count 2
at offset `2^63 - 1` passes the guard `offset+count <= len(buf)`, the sum
having wrapped to a negative `int`, and the slice `buf[offset:offset+count]`
panics. -/
theorem readVarValueFast_negative_offset_panics :
    (0 : Int) ≤ 0 ∧ (0 : Int) ≤ 5 ∧ (1 : Int) ≤ 1 ∧
      readVarValueFast sampleBitField [7] ⟨0, -1, 1⟩ = none ∧
      (1 : Int) ≤ 2 ∧ (0 : Int) ≤ 2 ^ 63 - 1 ∧
      readVarValueFast sampleBitField [7] ⟨0, 2 ^ 63 - 1, 2⟩ = none := by
  decide

/-- C9 (amended): for a descriptor with a supported raw type, an offset that is
not negative and a span that ends at an address a Go `int` holds
(`offset + n*width ≤ 2^63 - 1`, `n` being the count of an array and 1 for a
scalar), `readVarValueFast` returns a value, and not the nil one, whatever the
buffer. -/
theorem readVarValueFast_returns_of_representable_span (bf : List Byte → String)
    (buf : List Byte) (vh : VarHeader) (hty : 0 ≤ vh.Rtype ∧ vh.Rtype ≤ 5)
    (hoff : 0 ≤ vh.Offset) (hfit : vh.spanFits) :
    ∃ v, readVarValueFast bf buf vh = some v ∧ v ≠ Value.nil := by
  obtain ⟨v, hv⟩ := readVarValueFast_isSome bf buf vh hoff hfit
  refine ⟨v, hv, ?_⟩
  rintro rfl
  unfold readVarValueFast at hv
  rcases rtype_cases hty with h | h | h | h | h | h <;>
    simp only [h] at hv <;>
    norm_num at hv <;>
    split_ifs at hv <;>
    simp at hv

/-- Witness of C9 (amended): a float64 at offset 3 of a one-byte buffer. -/
theorem readVarValueFast_returns_of_representable_span_witness :
    (0 : Int) ≤ 3 ∧ VarHeader.spanFits ⟨5, 3, 1⟩ ∧
      ∃ v, readVarValueFast sampleBitField [7] ⟨5, 3, 1⟩ = some v ∧ v ≠ Value.nil :=
  ⟨by decide, by norm_num [VarHeader.spanFits, width],
    readVarValueFast_returns_of_representable_span sampleBitField [7] ⟨5, 3, 1⟩ (by decide)
      (by decide) (by norm_num [VarHeader.spanFits, width])⟩

/-- C10 (counterexample): the in-bounds int scalar with bytes FE FF FF FF
decodes to 4294967294, which is neither -2 nor inside `[-2^31, 2^31 - 1]`. -/
theorem readVarValueFast_int_not_twos_complement :
    (0 : Int) + 4 ≤ ([0xFE, 0xFF, 0xFF, 0xFF] : List Byte).length ∧
      readVarValueFast sampleBitField [0xFE, 0xFF, 0xFF, 0xFF] ⟨2, 0, 1⟩
        = some (Value.int 4294967294) ∧
      signed32 (le32 [0xFE, 0xFF, 0xFF, 0xFF]) = -2 ∧
      ¬ ((4294967294 : Int) ≤ 2 ^ 31 - 1) := by
  decide

/-- C10 (amended): for an in-bounds int descriptor, `readVarValueFast` returns
`-1` when the four little-endian bytes at the offset are all FF and their
unsigned 32-bit value otherwise, so the result lies in `[-1, 2^32 - 2]`; the
same holds for each of the `count` elements of an int array (the buffer, as
every Go slice, being shorter than `2^63` bytes). -/
theorem readVarValueFast_int_sentinel (bf : List Byte → String) (buf : List Byte)
    (vh : VarHeader) (hty : vh.Rtype = 2) (hoff : 0 ≤ vh.Offset)
    (hin : vh.Offset + vh.Count * 4 ≤ buf.length) :
    (vh.Count = 1 → readVarValueFast bf buf vh
        = some (Value.int (sentinel32 (le32 (buf.drop vh.Offset.toNat))))) ∧
    (1 < vh.Count → (buf.length : Int) < 2 ^ 63 → readVarValueFast bf buf vh
        = some (Value.ints ((List.range vh.Count.toNat).map
            (fun j => sentinel32 (le32 (buf.drop (vh.Offset.toNat + j * 4))))))) ∧
    (∀ w : List Byte, -1 ≤ sentinel32 (le32 w) ∧ sentinel32 (le32 w) ≤ 4294967294) := by
  refine ⟨?_, ?_, sentinel32_range⟩
  · intro h1
    exact readVarValueFast_int_scalar bf buf vh hty (by omega) hoff (by rw [h1] at hin; omega)
  · intro h1 hlen
    exact readVarValueFast_int_array bf buf vh hty h1 hoff hin hlen

/-- Witness of C10 (amended): the bytes FE FF FF FF at offset 0. -/
theorem readVarValueFast_int_sentinel_witness :
    (0 : Int) + 1 * 4 ≤ ([0xFE, 0xFF, 0xFF, 0xFF] : List Byte).length ∧
      readVarValueFast sampleBitField [0xFE, 0xFF, 0xFF, 0xFF] ⟨2, 0, 1⟩
        = some (Value.int (sentinel32 (le32 (([0xFE, 0xFF, 0xFF, 0xFF] : List Byte).drop 0)))) :=
  ⟨by decide,
    (readVarValueFast_int_sentinel sampleBitField [0xFE, 0xFF, 0xFF, 0xFF] ⟨2, 0, 1⟩ rfl
      (by decide) (by decide)).1 rfl⟩

/-! ## Helpers for the claims on arrays, keys and the pipeline -/

theorem le32_all_ones (w : List Byte) (h : w.take 4 = [0xFF, 0xFF, 0xFF, 0xFF]) :
    le32 w = 4294967295 := by
  match w, h with
  | a :: b :: c :: d :: rest, h =>
    simp only [List.take_succ_cons, List.take_zero, List.cons.injEq, and_true] at h
    obtain ⟨rfl, rfl, rfl, rfl⟩ := h
    have h255 : ((255 : Fin 256) : Nat) = 255 := by decide
    simp [le32, h255]

/-- The scalar decode of raw type `rtype` at `off`, for a span inside a buffer
shorter than `2^63` bytes. -/
theorem readVarValueFast_scalar_in_span (bf : List Byte → String) (buf : List Byte)
    (rtype off : Int) (hoff : 0 ≤ off) (hin : off + width rtype ≤ buf.length)
    (hlen : (buf.length : Int) < 2 ^ 63) :
    (rtype = 0 → readVarValueFast bf buf ⟨rtype, off, 1⟩
        = some (Value.u8 (buf.getD off.toNat 0))) ∧
    (rtype = 1 → readVarValueFast bf buf ⟨rtype, off, 1⟩
        = some (Value.bool (decide ((buf.getD off.toNat 0).val > 0)))) ∧
    (rtype = 2 → readVarValueFast bf buf ⟨rtype, off, 1⟩
        = some (Value.int (fastByte4ToInt (buf.drop off.toNat)))) ∧
    (rtype = 3 → readVarValueFast bf buf ⟨rtype, off, 1⟩
        = some (Value.str (bf ((buf.drop off.toNat).take 4)))) ∧
    (rtype = 4 → readVarValueFast bf buf ⟨rtype, off, 1⟩
        = some (Value.f32 (fastByte4ToFloat (buf.drop off.toNat)))) ∧
    (rtype = 5 → readVarValueFast bf buf ⟨rtype, off, 1⟩
        = some (Value.f64 (fastByte8ToFloat (buf.drop off.toNat)))) := by
  obtain ⟨a0, a1, a2, a3, a4, a5⟩ :=
    readVarValueFast_scalar bf buf ⟨rtype, off, 1⟩ (by norm_num) hoff (fun _ => by
      show off + width rtype < 2 ^ 63
      omega)
  simp only [] at a0 a1 a2 a3 a4 a5
  refine ⟨?_, ?_, ?_, ?_, ?_, ?_⟩ <;> intro h <;>
    simp only [h, width] at hin <;> norm_num at hin
  · rw [a0 h, if_pos (by omega)]
  · rw [a1 h, if_pos (by omega)]
  · rw [a2 h, if_pos (by omega)]
  · rw [a3 h, if_pos (by omega)]
  · rw [a4 h, if_pos (by omega)]
  · rw [a5 h, if_pos (by omega)]

/-- The array decode of each raw type, for a span inside a buffer shorter than
`2^63` bytes. -/
theorem readVarValueFast_array_in_span (bf : List Byte → String) (buf : List Byte)
    (vh : VarHeader) (hcount : vh.Count > 1) (hoff : 0 ≤ vh.Offset)
    (hin : vh.Offset + vh.Count * width vh.Rtype ≤ buf.length)
    (hlen : (buf.length : Int) < 2 ^ 63) :
    (vh.Rtype = 0 → readVarValueFast bf buf vh
        = some (Value.u8s ((buf.drop vh.Offset.toNat).take vh.Count.toNat))) ∧
    (vh.Rtype = 1 → readVarValueFast bf buf vh
        = some (Value.bools (((buf.drop vh.Offset.toNat).take vh.Count.toNat).map
            (fun b => decide (b.val > 0))))) ∧
    (vh.Rtype = 2 → readVarValueFast bf buf vh
        = some (Value.ints ((List.range vh.Count.toNat).map
            (fun j => fastByte4ToInt (buf.drop (vh.Offset.toNat + j * 4)))))) ∧
    (vh.Rtype = 3 → readVarValueFast bf buf vh
        = some (Value.strs ((List.range vh.Count.toNat).map
            (fun j => bf ((buf.drop (vh.Offset.toNat + j * 4)).take 4))))) ∧
    (vh.Rtype = 4 → readVarValueFast bf buf vh
        = some (Value.f32s ((List.range vh.Count.toNat).map
            (fun j => fastByte4ToFloat (buf.drop (vh.Offset.toNat + j * 4)))))) ∧
    (vh.Rtype = 5 → readVarValueFast bf buf vh
        = some (Value.f64s ((List.range vh.Count.toNat).map
            (fun j => fastByte8ToFloat (buf.drop (vh.Offset.toNat + j * 8)))))) := by
  obtain ⟨a0, a1, a2, a3, a4, a5⟩ :=
    readVarValueFast_array bf buf vh hcount hoff (by omega)
  refine ⟨?_, ?_, ?_, ?_, ?_, ?_⟩ <;> intro h <;>
    simp only [h, width] at hin <;> norm_num at hin
  · rw [a0 h, if_pos hin]
  · rw [a1 h]
  · rw [a2 h, if_pos hin]
  · rw [a3 h]
    have hmin : min vh.Count.toNat ((buf.length - vh.Offset.toNat) / 4) = vh.Count.toNat := by
      omega
    rw [hmin]
  · rw [a4 h, if_pos hin]
  · rw [a5 h, if_pos hin]

theorem lookupEntry_isSome_iff {β : Type} (k : String) (l : List (String × β)) :
    (lookupEntry k l).isSome ↔ k ∈ l.map Prod.fst := by
  induction l with
  | nil => simp [lookupEntry]
  | cons e r ih =>
    obtain ⟨k', v⟩ := e
    unfold lookupEntry
    by_cases hk : k' = k
    · simp [hk]
    · simp only [if_neg hk, ih, List.map_cons, List.mem_cons]
      constructor
      · exact Or.inr
      · rintro (h | h)
        · exact absurd h.symm hk
        · exact h

theorem lookupEntry_setEntry {β : Type} (k k' : String) (v : β) (l : List (String × β)) :
    lookupEntry k' (setEntry k v l) = if k' = k then some v else lookupEntry k' l := by
  induction l with
  | nil =>
    simp only [setEntry, lookupEntry]
    by_cases h : k = k'
    · simp [h]
    · have h' : ¬ k' = k := fun e => h e.symm
      simp [h, h']
  | cons e r ih =>
    obtain ⟨k₁, v₁⟩ := e
    unfold setEntry
    by_cases h1 : k₁ = k
    · subst h1
      simp only [if_true, lookupEntry]
      by_cases h : k₁ = k'
      · simp [h]
      · have h' : ¬ k' = k₁ := fun e => h e.symm
        simp [h, h']
    · simp only [if_neg h1, lookupEntry, ih]
      by_cases h : k₁ = k'
      · have h' : ¬ k' = k := fun e => h1 (h.trans e)
        simp [h, h']
      · simp [h]

theorem Tick.get_set (t : Tick) (k k' : String) (v : Value) :
    (t.set k v).get k' = if k' = k then some v else t.get k' :=
  lookupEntry_setEntry k k' v t.entries

theorem Tick.mem_keys_iff (t : Tick) (k : String) : k ∈ t.keys ↔ (t.get k).isSome :=
  (lookupEntry_isSome_iff k t.entries).symm

theorem Tick.mem_keys_set (t : Tick) (k k' : String) (v : Value) :
    k' ∈ (t.set k v).keys ↔ k' = k ∨ k' ∈ t.keys := by
  rw [Tick.mem_keys_iff, Tick.mem_keys_iff, Tick.get_set]
  by_cases h : k' = k <;> simp [h]

theorem resolveWhitelist_names (vars : List (String × VarHeader)) :
    ∀ (wl : List String) (acc : List VarHeader × List String),
      (resolveWhitelist vars wl acc).2
        = acc.2 ++ wl.filter (fun name => (lookupEntry name vars).isSome) := by
  intro wl
  induction wl with
  | nil => intro acc; simp [resolveWhitelist]
  | cons name rest ih =>
    intro acc
    obtain ⟨vhs, names⟩ := acc
    unfold resolveWhitelist
    cases hl : lookupEntry name vars with
    | none => simp [ih, List.filter_cons, hl]
    | some vh => simp [ih, List.filter_cons, hl]

theorem resolveWhitelist_length (vars : List (String × VarHeader)) :
    ∀ (wl : List String) (acc : List VarHeader × List String),
      acc.1.length = acc.2.length →
      (resolveWhitelist vars wl acc).1.length = (resolveWhitelist vars wl acc).2.length :=
  fun wl acc h => (resolveWhitelist_spec vars (fun _ => True) (fun _ _ => trivial) wl acc
    (fun _ _ => trivial) h).2

theorem fillTick_keys (bf : List Byte → String) (buf : List Byte) (varNames : List String) :
    ∀ (vhs : List VarHeader) (i : Nat) (t t' : Tick),
      fillTick bf buf varNames vhs i t = some t' →
      ∀ name, name ∈ t'.keys ↔ name ∈ t.keys ∨ name ∈ (varNames.drop i).take vhs.length := by
  intro vhs
  induction vhs with
  | nil =>
    intro i t t' h name
    simp only [fillTick, Option.some.injEq] at h
    simp [h]
  | cons vh rest ih =>
    intro i t t' h name
    unfold fillTick at h
    cases hn : varNames[i]? with
    | none => simp [hn] at h
    | some varName =>
      cases hv : readVarValueFast bf buf vh with
      | none => simp [hn, hv] at h
      | some val =>
        simp only [hn, hv] at h
        rw [ih (i + 1) _ t' h name, Tick.mem_keys_set]
        have hi : i < varNames.length := by
          by_contra hc
          rw [List.getElem?_eq_none (by omega)] at hn
          exact absurd hn (by simp)
        have hd : varNames.drop i = varName :: varNames.drop (i + 1) := by
          rw [List.drop_eq_getElem_cons hi]
          rw [List.getElem?_eq_getElem hi] at hn
          simp only [Option.some.injEq] at hn
          rw [hn]
        rw [hd, List.length_cons, List.take_succ_cons, List.mem_cons]
        tauto


theorem readVarsFromBuffer_keys (bf : List Byte → String) (p p' : Parser) (buf : List Byte)
    (t : Tick) (h : p.readVarsFromBuffer bf buf = some (p', t))
    (hlen : p.varHeaders.length = p.varNames.length) :
    SameConfig p p' ∧ p'.current = p.current ∧ ∀ name, name ∈ t.keys ↔ name ∈ p.varNames := by
  unfold Parser.readVarsFromBuffer at h
  cases hf : fillTick bf buf p.varNames p.varHeaders 0 Tick.empty with
  | none => simp [hf] at h
  | some tp =>
    simp only [hf, Option.some.injEq, Prod.mk.injEq] at h
    obtain ⟨rfl, rfl⟩ := h
    refine ⟨⟨rfl, rfl, rfl, rfl, rfl⟩, rfl, ?_⟩
    intro name
    rw [fillTick_keys bf buf p.varNames p.varHeaders 0 Tick.empty tp hf name, hlen]
    simp [Tick.keys, Tick.empty]

theorem Next_of_read_ok (bf : List Byte → String) (p : Parser)
    (h : (p.read (p.recordOffset p.current)).2 = true) :
    p.Next bf =
      match p.afterLookAhead.readVarsFromBuffer bf p.afterLookAhead.bufferPool with
      | none => none
      | some (p3, newVars) =>
        some ({ p3 with current := p3.current + 1 }, some newVars,
          (p.afterRead.read (p.afterRead.recordOffset (p.afterRead.current + 1))).2) := by
  unfold Parser.recordOffset at h
  simp only [Parser.Next, h, Bool.not_true, Bool.false_eq_true, if_false]
  rfl

theorem afterLookAhead_sameConfig (p : Parser) :
    SameConfig p p.afterLookAhead ∧ p.afterLookAhead.current = p.current := by
  have h1 := read_sameConfig p (p.recordOffset p.current)
  have h2 := read_sameConfig p.afterRead (p.afterRead.recordOffset (p.afterRead.current + 1))
  exact ⟨h1.1.trans h2.1, h2.2.trans h1.2⟩

theorem Next_result (bf : List Byte → String) (p p' : Parser) (t : Option Tick) (b : Bool)
    (h : p.Next bf = some (p', t, b)) (hlen : p.varHeaders.length = p.varNames.length) :
    SameConfig p p' ∧ ∀ tick, t = some tick → ∀ name, name ∈ tick.keys ↔ name ∈ p.varNames := by
  cases hr : (p.read (p.recordOffset p.current)).2 with
  | false =>
    obtain ⟨p'', hn, hc, _⟩ := Next_fail bf p hr
    rw [hn] at h
    simp only [Option.some.injEq, Prod.mk.injEq] at h
    obtain ⟨rfl, rfl, rfl⟩ := h
    exact ⟨hc, fun tick ht => by simp at ht⟩
  | true =>
    rw [Next_of_read_ok bf p hr] at h
    have hc := afterLookAhead_sameConfig p
    cases hv : p.afterLookAhead.readVarsFromBuffer bf p.afterLookAhead.bufferPool with
    | none => simp [hv] at h
    | some res =>
      obtain ⟨p3, newVars⟩ := res
      simp only [hv, Option.some.injEq, Prod.mk.injEq] at h
      obtain ⟨rfl, rfl, rfl⟩ := h
      obtain ⟨hc3, _, hk⟩ := readVarsFromBuffer_keys bf _ _ _ _ hv
        (by rw [hc.1.varHeaders, hc.1.varNames]; exact hlen)
      have hc13 := hc.1.trans hc3
      refine ⟨⟨hc13.reader, hc13.header, hc13.varHeaders, hc13.varNames, hc13.bufLen⟩, ?_⟩
      intro tick ht name
      simp only [Option.some.injEq] at ht
      subst ht
      rw [hk name, hc.1.varNames]

theorem ParseAt_result (bf : List Byte → String) (p p' : Parser) (offset : Int)
    (t : Option Tick) (h : p.ParseAt bf offset = some (p', t))
    (hlen : p.varHeaders.length = p.varNames.length) :
    SameConfig p p' ∧ p'.current = p.current ∧
      ∀ tick, t = some tick → ∀ name, name ∈ tick.keys ↔ name ∈ p.varNames := by
  have hc := read_sameConfig p offset
  unfold Parser.ParseAt at h
  cases hr : (p.read offset).2 with
  | false =>
    simp only [hr, Bool.not_false, if_true, Option.some.injEq, Prod.mk.injEq] at h
    obtain ⟨rfl, rfl⟩ := h
    exact ⟨hc.1, hc.2, fun tick ht => by simp at ht⟩
  | true =>
    simp only [hr, Bool.not_true, Bool.false_eq_true, if_false] at h
    cases hv : (p.read offset).1.readVarsFromBuffer bf (p.read offset).1.bufferPool with
    | none => simp [hv] at h
    | some res =>
      obtain ⟨p2, newVars⟩ := res
      simp only [hv, Option.some.injEq, Prod.mk.injEq] at h
      obtain ⟨rfl, rfl⟩ := h
      obtain ⟨hc2, hcur, hk⟩ := readVarsFromBuffer_keys bf _ _ _ _ hv
        (by rw [hc.1.varHeaders, hc.1.varNames]; exact hlen)
      refine ⟨hc.1.trans hc2, hcur.trans hc.2, ?_⟩
      intro tick ht name
      simp only [Option.some.injEq] at ht
      subst ht
      rw [hk name, hc.1.varNames]

theorem Next_total (bf : List Byte → String) (p : Parser) (hp : p.wellFormed) :
    ∃ res, p.Next bf = some res := by
  cases hr : (p.read (p.recordOffset p.current)).2 with
  | false =>
    obtain ⟨p', hn, _⟩ := Next_fail bf p hr
    exact ⟨_, hn⟩
  | true =>
    obtain ⟨p', t, hn, _⟩ := Next_ok bf p hp hr
    exact ⟨_, hn⟩

theorem ParseAt_total (bf : List Byte → String) (p : Parser) (hp : p.wellFormed)
    (offset : Int) : ∃ res, p.ParseAt bf offset = some res := by
  have hc := read_sameConfig p offset
  unfold Parser.ParseAt
  cases hr : (p.read offset).2 with
  | false =>
    simp only [hr, Bool.not_false, if_true]
    exact ⟨_, rfl⟩
  | true =>
    obtain ⟨t, ht⟩ := readVarsFromBuffer_ok bf (p.read offset).1 (p.read offset).1.bufferPool
      (wellFormed_congr hc.1 hp)
    simp only [hr, Bool.not_true, Bool.false_eq_true, if_false, ht]
    exact ⟨_, rfl⟩

theorem Reaches_sameConfig (bf : List Byte → String) (p q : Parser)
    (hlen : p.varHeaders.length = p.varNames.length) (h : Parser.Reaches bf p q) :
    SameConfig p q := by
  induction h with
  | start => exact SameConfig.refl p
  | next _ hn ih =>
    exact ih.trans (Next_result bf _ _ _ _ hn (by rw [ih.varHeaders, ih.varNames]; exact hlen)).1
  | parseAt _ hn ih =>
    exact ih.trans
      (ParseAt_result bf _ _ _ _ hn (by rw [ih.varHeaders, ih.varNames]; exact hlen)).1
  | seek iter _ ih => exact ⟨ih.reader, ih.header, ih.varHeaders, ih.varNames, ih.bufLen⟩


theorem NewParser_fields (reader : Reader) (header : Header) (whitelist : List String)
    (p : Parser) (hp : NewParser reader header whitelist = some p) :
    p.header = header ∧ p.varHeaders.length = p.varNames.length ∧
      p.varNames = whitelist.filter (fun name => (lookupEntry name header.VarHeader).isSome) := by
  unfold NewParser at hp
  split_ifs at hp
  simp only [Option.some.injEq] at hp
  subst hp
  refine ⟨rfl, resolveWhitelist_length _ _ _ rfl, ?_⟩
  simp [resolveWhitelist_names]

theorem processLoop_cancelled (bf : List Byte → String) (ctx : Nat → Bool) (header : Header)
    (whitelist : List String) (procs : List Processor) (fuel n : Nat) (parser : Parser)
    (calls : List Call) (h : ctx n = true) :
    processLoop bf ctx header whitelist procs (fuel + 1) n parser calls
      = Outcome.returned (some "context cancelled") calls := by
  simp only [processLoop, h, if_true]

theorem processLoop_until_cancel (bf : List Byte → String) (data : List Byte) (p0 : Parser)
    (N : Nat) (hr : p0.reader = MmapReader.toReader ⟨data⟩)
    (hrec : holdsRecords data p0.header.TelemetryHeader N) (hp : p0.wellFormed)
    (hcur : p0.current = 1) (header : Header) (whitelist : List String)
    (procs : List Processor) (hok : ∀ proc ∈ procs, ∀ cs t b s, proc.Process cs t b s = none)
    (ctx : Nat → Bool) :
    ∀ (d c : Nat) (q : Parser) (calls : List Call) (n fuel : Nat),
      1 ≤ c → c + d ≤ N → (∀ j, n ≤ j → j < n + d → ctx j = false) → ctx (n + d) = true →
      d + 1 ≤ fuel → p0.afterNext bf (c - 1) = some q →
      processLoop bf ctx header whitelist procs fuel n q calls
        = Outcome.returned (some "context cancelled")
            (calls ++ expectedCalls
              (fun k => recordCalls whitelist header.SessionInfo (p0.nthTick bf k)
                true procs 0) c d) := by
  intro d
  induction d with
  | zero =>
    intro c q calls n fuel _ _ _ hat hfuel _
    obtain ⟨f, rfl⟩ : ∃ f, fuel = f + 1 := ⟨fuel - 1, by omega⟩
    rw [processLoop_cancelled bf ctx header whitelist procs f n q calls (by simpa using hat)]
    simp [expectedCalls]
  | succ d ih =>
    intro c q calls n fuel hc hcd hbefore hat hfuel hq
    obtain ⟨f, rfl⟩ : ∃ f, fuel = f + 1 := ⟨fuel - 1, by omega⟩
    obtain ⟨q1, q', t, hq1, hn, hq', hnth⟩ :=
      nthNext_records bf data p0 N hr hrec hp hcur c hc (by omega)
    rw [hq] at hq1
    simp only [Option.some.injEq] at hq1
    subst hq1
    have htick : p0.nthTick bf c = some t := by simp [Parser.nthTick, hnth]
    have hlast : c < N := by omega
    unfold processLoop
    simp only [hbefore n (le_refl _) (by omega), Bool.false_eq_true, if_false, hn,
      runProcessors_ok _ _ _ _ procs 0 calls hok, hlast, decide_True, Bool.not_true]
    rw [ih (c + 1) q' _ (n + 1) f (by omega) (by omega)
      (fun j hj1 hj2 => hbefore j (by omega) (by omega))
      (by rw [show n + 1 + d = n + (d + 1) from by omega]; exact hat) (by omega)
      (by simpa using hq')]
    simp only [expectedCalls, htick, List.append_assoc]

theorem callResult_append_left (procs : List Processor) (calls more : List Call) (j : Nat)
    (hj : j < calls.length) :
    callResult procs (calls ++ more) j = callResult procs calls j := by
  unfold callResult
  rw [List.getElem?_append_left hj, List.take_append_of_le_length (le_of_lt hj)]

theorem callResult_of_length_le (procs : List Processor) (calls : List Call) (j : Nat)
    (hj : calls.length ≤ j) : callResult procs calls j = none := by
  unfold callResult
  rw [List.getElem?_eq_none hj]

theorem callResult_last (procs : List Processor) (calls : List Call) (c : Call)
    (proc : Processor) (hproc : procs[c.proc]? = some proc) :
    callResult procs (calls ++ [c]) calls.length
      = proc.Process calls c.input c.hasNext c.session := by
  unfold callResult
  simp [hproc]

theorem allSucceeded_nil (procs : List Processor) : allSucceeded procs [] :=
  fun j => callResult_of_length_le procs [] j (Nat.zero_le _)

theorem allSucceeded_snoc (procs : List Processor) (calls : List Call) (c : Call)
    (h : allSucceeded procs calls) (hc : callResult procs (calls ++ [c]) calls.length = none) :
    allSucceeded procs (calls ++ [c]) := by
  intro j
  rcases Nat.lt_trichotomy j calls.length with hj | hj | hj
  · rw [callResult_append_left procs calls [c] j hj]; exact h j
  · rw [hj]; exact hc
  · exact callResult_of_length_le _ _ _ (by simp; omega)

theorem runProcessors_sound (procs : List Processor) (whitelist : List String)
    (tick : Option Tick) (hasNext : Bool) (session : Nat) :
    ∀ (rest : List Processor) (i : Nat) (calls : List Call),
      (∀ k, rest[k]? = procs[i + k]?) → allSucceeded procs calls →
      (∀ calls', runProcessors whitelist tick hasNext session rest i calls = (none, calls') →
        allSucceeded procs calls') ∧
      (∀ e calls', runProcessors whitelist tick hasNext session rest i calls = (some e, calls') →
        ∃ pre c, calls' = pre ++ [c] ∧ allSucceeded procs pre ∧
          callResult procs calls' pre.length = some e) := by
  intro rest
  induction rest with
  | nil =>
    intro i calls _ hgood
    constructor
    · intro calls' h
      simp only [runProcessors, Prod.mk.injEq, true_and] at h
      rw [← h]; exact hgood
    · intro e calls' h
      simp [runProcessors] at h
  | cons proc rest ih =>
    intro i calls hidx hgood
    have hproc : procs[i]? = some proc := by
      have := hidx 0
      simpa using this.symm
    have hrest : ∀ k, rest[k]? = procs[i + 1 + k]? := by
      intro k
      have := hidx (k + 1)
      rw [List.getElem?_cons_succ] at this
      rw [this]
      congr 1
      omega
    have hlast := callResult_last procs calls
      ⟨i, inputFor whitelist proc tick, hasNext, session⟩ proc hproc
    unfold runProcessors
    cases hres : proc.Process calls (inputFor whitelist proc tick) hasNext session with
    | some err =>
      have hres' : proc.Process calls
          (if proc.Whitelist.length ≥ whitelist.length then tick
            else some (filterNilable tick proc.Whitelist)) hasNext session = some err := hres
      simp only [hres']
      constructor
      · intro calls' h
        simp at h
      · intro e calls' h
        simp only [Prod.mk.injEq, Option.some.injEq] at h
        obtain ⟨rfl, rfl⟩ := h
        refine ⟨calls, _, rfl, hgood, ?_⟩
        rw [← hres]
        exact hlast
    | none =>
      have hres' : proc.Process calls
          (if proc.Whitelist.length ≥ whitelist.length then tick
            else some (filterNilable tick proc.Whitelist)) hasNext session = none := hres
      simp only [hres']
      exact ih (i + 1) _ hrest
        (allSucceeded_snoc procs calls _ hgood (by rw [← hres]; exact hlast))


theorem processLoop_sound (bf : List Byte → String) (ctx : Nat → Bool) (header : Header)
    (whitelist : List String) (procs : List Processor) :
    ∀ (fuel n : Nat) (parser : Parser) (calls : List Call), allSucceeded procs calls →
      (processLoop bf ctx header whitelist procs fuel n parser calls).sound procs := by
  intro fuel
  induction fuel with
  | zero => intro n parser calls _; simp [processLoop, Outcome.sound]
  | succ fuel ih =>
    intro n parser calls hgood
    unfold processLoop
    by_cases hc : ctx n = true
    · simp only [hc, if_true]
      exact Or.inl hgood
    · simp only [hc, Bool.false_eq_true, if_false]
      cases hn : parser.Next bf with
      | none => exact hgood
      | some res =>
        obtain ⟨parser1, tick, hasNext⟩ := res
        have hrun := runProcessors_sound procs whitelist tick hasNext header.SessionInfo procs 0
          calls (fun k => by simp) hgood
        cases hr : runProcessors whitelist tick hasNext header.SessionInfo procs 0 calls with
        | mk err calls1 =>
          cases err with
          | some e =>
            simp only [hr]
            exact Or.inr (hrun.2 e calls1 hr)
          | none =>
            have hgood1 := hrun.1 calls1 hr
            simp only [hr]
            cases hasNext with
            | false => exact hgood1
            | true => exact ih (n + 1) parser1 calls1 hgood1

theorem processFrom_sound (bf : List Byte → String) (fuel : Nat) (ctx : Nat → Bool)
    (stub : Stub) (procs : List Processor) (calls : List Call)
    (hgood : allSucceeded procs calls) :
    (processFrom bf fuel ctx stub procs calls).sound procs := by
  cases hp : NewParser stub.r stub.header (buildWhitelist stub.header.VarHeader procs) with
  | none =>
    simp only [processFrom, hp]
    exact hgood
  | some parser =>
    simp only [processFrom, hp]
    exact processLoop_sound bf ctx _ _ procs fuel 0 parser calls hgood

theorem ProcessLoop_sound (bf : List Byte → String) (fuel : Nat) (ctx : Nat → Nat → Bool)
    (procs : List Processor) :
    ∀ (stubs : List Stub) (s : Nat) (calls : List Call), allSucceeded procs calls →
      (ProcessLoop bf fuel ctx procs stubs s calls).sound procs := by
  intro stubs
  induction stubs with
  | nil => intro s calls hgood; exact hgood
  | cons stub rest ih =>
    intro s calls hgood
    have h := processFrom_sound bf fuel (ctx s) stub procs calls hgood
    unfold ProcessLoop
    cases hout : processFrom bf fuel (ctx s) stub procs calls with
    | outOfFuel => trivial
    | panicked calls1 => rw [hout] at h; exact h
    | returned err calls1 =>
      rw [hout] at h
      cases err with
      | none => exact ih (s + 1) calls1 h
      | some e => exact h

/-- In a sound outcome a call that returned an error is the last call, and the
run returned that error. -/
theorem failure_is_last (procs : List Processor) (out : Outcome) (hs : out.sound procs)
    (calls : List Call) (j : Nat) (e : String) (hlog : out.log = some calls)
    (hfail : callResult procs calls j = some e) :
    j + 1 = calls.length ∧ out = Outcome.returned (some e) calls := by
  cases out with
  | outOfFuel => simp [Outcome.log] at hlog
  | panicked cs =>
    simp only [Outcome.log, Option.some.injEq] at hlog
    subst hlog
    have := hs j
    rw [hfail] at this
    exact absurd this (by simp)
  | returned err cs =>
    simp only [Outcome.log, Option.some.injEq] at hlog
    subst hlog
    cases err with
    | none =>
      have := hs j
      rw [hfail] at this
      exact absurd this (by simp)
    | some e' =>
      rcases hs with hs | ⟨pre, c, rfl, hpre, hlast⟩
      · have := hs j
        rw [hfail] at this
        exact absurd this (by simp)
      · rcases Nat.lt_trichotomy j pre.length with hj | hj | hj
        · rw [callResult_append_left procs pre [c] j hj, hpre j] at hfail
          exact absurd hfail (by simp)
        · subst hj
          rw [hlast] at hfail
          simp only [Option.some.injEq] at hfail
          subst hfail
          exact ⟨by simp, rfl⟩
        · rw [callResult_of_length_le procs _ j (by simp; omega)] at hfail
          exact absurd hfail (by simp)

theorem processLoop_fuel_mono (bf : List Byte → String) (ctx : Nat → Bool) (header : Header)
    (whitelist : List String) (procs : List Processor) :
    ∀ (fuel n : Nat) (parser : Parser) (calls : List Call) (d : Nat),
      processLoop bf ctx header whitelist procs fuel n parser calls ≠ Outcome.outOfFuel →
      processLoop bf ctx header whitelist procs (fuel + d) n parser calls
        = processLoop bf ctx header whitelist procs fuel n parser calls := by
  intro fuel
  induction fuel with
  | zero => intro n parser calls d h; simp [processLoop] at h
  | succ fuel ih =>
    intro n parser calls d h
    rw [show fuel + 1 + d = (fuel + d) + 1 from by omega]
    unfold processLoop at h ⊢
    by_cases hc : ctx n = true
    · simp only [hc, if_true]
    · simp only [hc, Bool.false_eq_true, if_false] at h ⊢
      cases hn : parser.Next bf with
      | none => rfl
      | some res =>
        obtain ⟨parser1, tick, hasNext⟩ := res
        simp only [hn] at h ⊢
        cases hr : runProcessors whitelist tick hasNext header.SessionInfo procs 0 calls with
        | mk err calls1 =>
          simp only [hr] at h ⊢
          cases err with
          | some e => rfl
          | none =>
            simp only [] at h ⊢
            cases hasNext with
            | false => rfl
            | true =>
              simp only [Bool.not_true, Bool.false_eq_true, if_false] at h ⊢
              exact ih (n + 1) parser1 calls1 d h

theorem processFrom_fuel_mono (bf : List Byte → String) (fuel d : Nat) (ctx : Nat → Bool)
    (stub : Stub) (procs : List Processor) (calls : List Call)
    (h : processFrom bf fuel ctx stub procs calls ≠ Outcome.outOfFuel) :
    processFrom bf (fuel + d) ctx stub procs calls = processFrom bf fuel ctx stub procs calls := by
  cases hp : NewParser stub.r stub.header (buildWhitelist stub.header.VarHeader procs) with
  | none => simp only [processFrom, hp]
  | some parser =>
    simp only [processFrom, hp] at h ⊢
    exact processLoop_fuel_mono bf ctx _ _ procs fuel 0 parser calls d h

theorem ProcessLoop_fuel_mono (bf : List Byte → String) (fuel d : Nat) (ctx : Nat → Nat → Bool)
    (procs : List Processor) :
    ∀ (stubs : List Stub) (s : Nat) (calls : List Call),
      ProcessLoop bf fuel ctx procs stubs s calls ≠ Outcome.outOfFuel →
      ProcessLoop bf (fuel + d) ctx procs stubs s calls
        = ProcessLoop bf fuel ctx procs stubs s calls := by
  intro stubs
  induction stubs with
  | nil => intro s calls _; rfl
  | cons stub rest ih =>
    intro s calls h
    unfold ProcessLoop at h ⊢
    have hne : processFrom bf fuel (ctx s) stub procs calls ≠ Outcome.outOfFuel := by
      intro hc
      rw [hc] at h
      exact h rfl
    rw [processFrom_fuel_mono bf fuel d (ctx s) stub procs calls hne]
    cases hout : processFrom bf fuel (ctx s) stub procs calls with
    | outOfFuel => exact absurd hout hne
    | panicked calls1 => rfl
    | returned err calls1 =>
      rw [hout] at h
      cases err with
      | none => exact ih (s + 1) calls1 h
      | some e => rfl

theorem log_ne_outOfFuel (out : Outcome) (calls : List Call) (h : out.log = some calls) :
    out ≠ Outcome.outOfFuel := by
  intro hc
  rw [hc] at h
  simp [Outcome.log] at h

theorem filterLoop_get (t : Tick) :
    ∀ (S : List String) (acc : Tick) (k : String),
      (filterLoop t S acc).get k
        = if k ∈ S ∧ (t.get k).isSome then t.get k else acc.get k := by
  intro S
  induction S with
  | nil => intro acc k; simp [filterLoop]
  | cons f rest ih =>
    intro acc k
    unfold filterLoop
    cases hf : t.get f with
    | none =>
      simp only [ih, List.mem_cons]
      by_cases hk : k = f
      · subst hk
        simp [hf]
      · simp [hk]
    | some val =>
      simp only [ih, List.mem_cons, Tick.get_set]
      by_cases hk : k = f
      · subst hk
        simp [hf]
      · simp [hk]

theorem Filter_get (t : Tick) (S : List String) (k : String) :
    (t.Filter S).get k = if k ∈ S then t.get k else none := by
  unfold Tick.Filter
  rw [filterLoop_get]
  have hempty : Tick.empty.get k = none := rfl
  rw [hempty]
  by_cases hk : k ∈ S
  · cases hg : t.get k <;> simp [hk]
  · simp [hk]

theorem filterLoop_congr (t t' : Tick) :
    ∀ (S : List String) (acc : Tick), (∀ f ∈ S, t'.get f = t.get f) →
      filterLoop t' S acc = filterLoop t S acc := by
  intro S
  induction S with
  | nil => intro acc _; rfl
  | cons f rest ih =>
    intro acc h
    unfold filterLoop
    rw [h f (List.mem_cons_self _ _)]
    cases t.get f with
    | none => exact ih acc (fun g hg => h g (List.mem_cons_of_mem _ hg))
    | some val => exact ih _ (fun g hg => h g (List.mem_cons_of_mem _ hg))

/-! ## Claims on arrays, keys and the pipeline -/

/-- C11: for an in-bounds int descriptor, a 4-byte element whose bytes are all
FF decodes to `-1`: as the scalar result when the count is 1, and as the
element of that index in the array when the count is above 1 (the buffer, as
every Go slice, being shorter than `2^63` bytes). -/
theorem readVarValueFast_all_ones_is_minus_one (bf : List Byte → String) (buf : List Byte)
    (vh : VarHeader) (hty : vh.Rtype = 2) (hoff : 0 ≤ vh.Offset)
    (hin : vh.Offset + vh.Count * 4 ≤ buf.length) :
    (vh.Count = 1 → (buf.drop vh.Offset.toNat).take 4 = [0xFF, 0xFF, 0xFF, 0xFF] →
        readVarValueFast bf buf vh = some (Value.int (-1))) ∧
    (1 < vh.Count → (buf.length : Int) < 2 ^ 63 →
      ∃ l, readVarValueFast bf buf vh = some (Value.ints l) ∧
        l.length = vh.Count.toNat ∧
        ∀ i, i < vh.Count.toNat →
          (buf.drop (vh.Offset.toNat + i * 4)).take 4 = [0xFF, 0xFF, 0xFF, 0xFF] →
          l[i]? = some (-1)) := by
  constructor
  · intro h1 hff
    rw [readVarValueFast_int_scalar bf buf vh hty (by omega) hoff (by rw [h1] at hin; omega),
      le32_all_ones _ hff]
    rfl
  · intro h1 hlen
    refine ⟨_, readVarValueFast_int_array bf buf vh hty h1 hoff hin hlen, by simp, ?_⟩
    intro i hi hff
    rw [List.getElem?_map, List.getElem?_range hi, Option.map_some', le32_all_ones _ hff]
    rfl


/-- Witness of C11: the example of the spec, offset 12 of a 16-byte buffer whose
bytes 12 to 15 are FF. -/
theorem readVarValueFast_all_ones_is_minus_one_witness :
    (12 : Int) + 1 * 4 ≤ sentinelRecord.length ∧
      (sentinelRecord.drop 12).take 4 = [0xFF, 0xFF, 0xFF, 0xFF] ∧
      readVarValueFast sampleBitField sentinelRecord ⟨2, 12, 1⟩ = some (Value.int (-1)) :=
  ⟨by decide, by decide,
    (readVarValueFast_all_ones_is_minus_one sampleBitField sentinelRecord ⟨2, 12, 1⟩ rfl
      (by decide) (by decide)).1 rfl (by decide)⟩

/-- C12: for every raw type, every count above 1 and every offset that is not
negative, when the span `[offset, offset + count*width)` lies inside the
buffer (which, as every Go slice, is shorter than `2^63` bytes)
`readVarValueFast` returns an array of exactly `count` elements whose
`i`-th element is the scalar decode of the same raw type at
`offset + i*width`. -/
theorem readVarValueFast_array_elements (bf : List Byte → String) (buf : List Byte)
    (vh : VarHeader) (hty : 0 ≤ vh.Rtype ∧ vh.Rtype ≤ 5) (hcount : 1 < vh.Count)
    (hoff : 0 ≤ vh.Offset) (hin : vh.Offset + vh.Count * width vh.Rtype ≤ buf.length)
    (hlen : (buf.length : Int) < 2 ^ 63) :
    ∃ arr l, readVarValueFast bf buf vh = some arr ∧ arr.elems = some l ∧
      l.length = vh.Count.toNat ∧
      ∀ i : Nat, i < vh.Count.toNat →
        l[i]? = readVarValueFast bf buf ⟨vh.Rtype, vh.Offset + i * width vh.Rtype, 1⟩ := by
  have harr := readVarValueFast_array_in_span bf buf vh hcount hoff hin hlen
  have hsc : ∀ i : Nat, i < vh.Count.toNat →
      0 ≤ vh.Offset + i * width vh.Rtype ∧
        vh.Offset + i * width vh.Rtype + width vh.Rtype ≤ buf.length ∧
        (vh.Offset + i * width vh.Rtype).toNat = vh.Offset.toNat + i * (width vh.Rtype).toNat := by
    intro i hi
    have hw : 0 < width vh.Rtype := by unfold width; split_ifs <;> omega
    have hi' : ((i : Int) + 1) * width vh.Rtype ≤ vh.Count * width vh.Rtype := by
      apply mul_le_mul_of_nonneg_right _ (le_of_lt hw)
      omega
    have h0 : (0 : Int) ≤ i * width vh.Rtype := by positivity
    refine ⟨by omega, by nlinarith, ?_⟩
    have h1 : ((i * (width vh.Rtype).toNat : Nat) : Int) = i * width vh.Rtype := by
      push_cast
      rw [Int.toNat_of_nonneg (le_of_lt hw)]
    omega
  rcases rtype_cases hty with h | h | h | h | h | h
  · refine ⟨_, _, harr.1 h, rfl, by simp [h, width] at hin ⊢; omega, ?_⟩
    intro i hi
    obtain ⟨h0, h1, h2⟩ := hsc i hi
    rw [(readVarValueFast_scalar_in_span bf buf _ _ h0 h1 hlen).1 h, h2]
    simp only [h, width] at h1 h2 ⊢
    norm_num at h1 ⊢
    have hk : vh.Offset.toNat + i < buf.length := by omega
    rw [List.getElem?_take_of_lt hi, List.getElem?_drop, List.getElem?_map,
      List.getElem?_eq_getElem hk]
    simp
  · refine ⟨_, _, harr.2.1 h, rfl, by simp [h, width] at hin ⊢; omega, ?_⟩
    intro i hi
    obtain ⟨h0, h1, h2⟩ := hsc i hi
    rw [(readVarValueFast_scalar_in_span bf buf _ _ h0 h1 hlen).2.1 h, h2]
    simp only [h, width] at h1 h2 ⊢
    norm_num at h1 ⊢
    have hk : vh.Offset.toNat + i < buf.length := by omega
    rw [List.getElem?_take_of_lt hi, List.getElem?_drop, List.getElem?_map,
      List.getElem?_eq_getElem hk]
    simp
  · refine ⟨_, _, harr.2.2.1 h, rfl, by simp, ?_⟩
    intro i hi
    obtain ⟨h0, h1, h2⟩ := hsc i hi
    rw [(readVarValueFast_scalar_in_span bf buf _ _ h0 h1 hlen).2.2.1 h, h2]
    simp [h, width, List.getElem?_range hi]
  · refine ⟨_, _, harr.2.2.2.1 h, rfl, by simp, ?_⟩
    intro i hi
    obtain ⟨h0, h1, h2⟩ := hsc i hi
    rw [(readVarValueFast_scalar_in_span bf buf _ _ h0 h1 hlen).2.2.2.1 h, h2]
    simp [h, width, List.getElem?_range hi]
  · refine ⟨_, _, harr.2.2.2.2.1 h, rfl, by simp, ?_⟩
    intro i hi
    obtain ⟨h0, h1, h2⟩ := hsc i hi
    rw [(readVarValueFast_scalar_in_span bf buf _ _ h0 h1 hlen).2.2.2.2.1 h, h2]
    simp [h, width, List.getElem?_range hi]
  · refine ⟨_, _, harr.2.2.2.2.2 h, rfl, by simp, ?_⟩
    intro i hi
    obtain ⟨h0, h1, h2⟩ := hsc i hi
    rw [(readVarValueFast_scalar_in_span bf buf _ _ h0 h1 hlen).2.2.2.2.2 h, h2]
    simp [h, width, List.getElem?_range hi]

/-- Witness of C12: an int array of count 2 at offset 4 of the 16-byte buffer
whose bytes 12 to 15 are FF. -/
theorem readVarValueFast_array_elements_witness :
    (4 : Int) + 2 * width 2 ≤ sentinelRecord.length ∧
      ∃ arr l, readVarValueFast sampleBitField sentinelRecord ⟨2, 4, 2⟩ = some arr ∧
        arr.elems = some l ∧ l.length = 2 ∧
        ∀ i : Nat, i < 2 →
          l[i]? = readVarValueFast sampleBitField sentinelRecord ⟨2, 4 + i * width 2, 1⟩ :=
  ⟨by decide,
    readVarValueFast_array_elements sampleBitField sentinelRecord ⟨2, 4, 2⟩ (by decide)
      (by decide) (by decide) (by decide) (by decide)⟩

/-- C13: for a parser built by `NewParser`, in whatever state calls to `Next`,
`ParseAt` and `Seek` have left it, the keys of a tick returned by `Next` or
`ParseAt` are exactly the names of the whitelist that are keys of the header's
variable directory; and when no variable of the directory has a negative
offset or a span that ends past the largest Go `int`, both calls do
return. -/
theorem Next_ParseAt_keys_are_known_whitelist_names (bf : List Byte → String) (reader : Reader)
    (header : Header) (whitelist : List String) (p q : Parser)
    (hp : NewParser reader header whitelist = some p) (hreach : Parser.Reaches bf p q) :
    (offsetsNonneg header.VarHeader → spansRepresentable header.VarHeader →
      (∃ res, q.Next bf = some res) ∧ ∀ offset, ∃ res, q.ParseAt bf offset = some res) ∧
    (∀ q' t b, q.Next bf = some (q', some t, b) →
      ∀ name, name ∈ t.keys ↔ name ∈ whitelist ∧ name ∈ header.VarHeader.map Prod.fst) ∧
    (∀ offset q' t, q.ParseAt bf offset = some (q', some t) →
      ∀ name, name ∈ t.keys ↔ name ∈ whitelist ∧ name ∈ header.VarHeader.map Prod.fst) := by
  obtain ⟨_, hlen, hnames⟩ := NewParser_fields reader header whitelist p hp
  have hc := Reaches_sameConfig bf p q hlen hreach
  have hlen' : q.varHeaders.length = q.varNames.length := by
    rw [hc.varHeaders, hc.varNames]; exact hlen
  have hmem : ∀ name, name ∈ q.varNames ↔
      name ∈ whitelist ∧ name ∈ header.VarHeader.map Prod.fst := by
    intro name
    rw [hc.varNames, hnames, List.mem_filter, lookupEntry_isSome_iff]
  refine ⟨?_, ?_, ?_⟩
  · intro hdir hfit
    have hwf := wellFormed_congr hc (NewParser_wellFormed _ _ _ p hp hdir hfit)
    exact ⟨Next_total bf q hwf, ParseAt_total bf q hwf⟩
  · intro q' t b hn name
    rw [(Next_result bf q q' _ b hn hlen').2 t rfl name, hmem]
  · intro offset q' t hn name
    rw [(ParseAt_result bf q q' offset _ hn hlen').2.2 t rfl name, hmem]

/-- Witness of C13: a fresh parser over the sample header asked for `Gear` and
for a name the directory does not have. -/
theorem Next_ParseAt_keys_are_known_whitelist_names_witness :
    ∃ p, NewParser (MmapReader.toReader ⟨oneRecord⟩) sampleHeader ["Gear", "Bogus"] = some p ∧
      ∀ q' t b, p.Next sampleBitField = some (q', some t, b) →
        ∀ name, name ∈ t.keys ↔
          name ∈ ["Gear", "Bogus"] ∧ name ∈ sampleHeader.VarHeader.map Prod.fst := by
  obtain ⟨p, hp, _⟩ := NewParser_spec (MmapReader.toReader ⟨oneRecord⟩) sampleHeader
    ["Gear", "Bogus"] (by decide)
  exact ⟨p, hp, (Next_ParseAt_keys_are_known_whitelist_names sampleBitField _ sampleHeader
    ["Gear", "Bogus"] p p hp Parser.Reaches.start).2.1⟩

/-- C14 (evaluation at the failing input): over the sample header, whose
directory has `Speed` and `Gear`, a parser built with no whitelist value, and
likewise one built with the single value `"*"`, returns from `Next` a tick
that holds no key. -/
theorem NewParser_wildcard_yields_empty_ticks :
    (NewParser (MmapReader.toReader ⟨oneRecord⟩) sampleHeader []).bind
        (fun p => p.nthNext sampleBitField 1)
      = some (some ⟨[]⟩, false) ∧
    (NewParser (MmapReader.toReader ⟨oneRecord⟩) sampleHeader ["*"]).bind
        (fun p => p.nthNext sampleBitField 1)
      = some (some ⟨[]⟩, false) ∧
    AvailableVars sampleHeader.VarHeader = ["Speed", "Gear"] := by
  decide

/-- C15 (evaluation at the failing input): a parser built for `Gear` and then
given `UpdateWhitelist("Speed")` still returns, from `Next` and from
`ParseAt`, ticks whose only key is `Gear`. -/
theorem UpdateWhitelist_leaves_ticks_unchanged :
    (NewParser (MmapReader.toReader ⟨oneRecord⟩) sampleHeader ["Gear"]).bind
        (fun p => (p.UpdateWhitelist ["Speed"]).nthNext sampleBitField 1)
      = some (some ⟨[("Gear", Value.int 1)]⟩, false) ∧
    (NewParser (MmapReader.toReader ⟨oneRecord⟩) sampleHeader ["Gear"]).bind
        (fun p => ((p.UpdateWhitelist ["Speed"]).ParseAt sampleBitField 16).map (fun r => r.2))
      = some (some ⟨[("Gear", Value.int 1)]⟩) ∧
    (NewParser (MmapReader.toReader ⟨oneRecord⟩) sampleHeader ["Gear"]).map
        (fun p => (p.UpdateWhitelist ["Speed"]).whitelist)
      = some ["Speed"] := by
  decide

/-- C16: (1) whenever the cancellation signal is found set at the start of an
iteration of the loop of `process`, `process` returns the cancellation error
with the calls made so far, and makes no other; (2) over a stub holding the
records `0..N` with processors that never fail, when the signal is first found
set at the start of iteration `m < N` (after `m` records), every processor has
received exactly `m` calls and the result is the cancellation error (the
directory having no negative offset and no span that ends past the largest Go
`int`). -/
theorem process_cancellation_stops_the_pipeline (bf : List Byte → String) (data : List Byte)
    (header : Header) (procs : List Processor) (N m : Nat) (ctx : Nat → Bool)
    (hrec : holdsRecords data header.TelemetryHeader N)
    (hdir : offsetsNonneg header.VarHeader) (hfit : spansRepresentable header.VarHeader)
    (hok : ∀ proc ∈ procs, ∀ cs t b s, proc.Process cs t b s = none)
    (hm : m < N) (hbefore : ∀ j, j < m → ctx j = false) (hat : ctx m = true)
    (fuel : Nat) (hfuel : m + 1 ≤ fuel) :
    (∀ (ctx' : Nat → Bool) (header' : Header) (whitelist : List String)
        (procs' : List Processor) (f n : Nat) (parser : Parser) (calls : List Call),
        ctx' n = true →
        processLoop bf ctx' header' whitelist procs' (f + 1) n parser calls
          = Outcome.returned (some "context cancelled") calls) ∧
    ∃ calls,
      process bf fuel ctx ⟨MmapReader.toReader ⟨data⟩, header⟩ procs
        = Outcome.returned (some "context cancelled") calls ∧
      ∀ i proc, procs[i]? = some proc →
        (callsOf i calls).length = m ∧
        (callsOf i calls).map (fun c => c.hasNext) = List.replicate m true := by
  refine ⟨fun ctx' header' whitelist procs' f n parser calls h =>
    processLoop_cancelled bf ctx' header' whitelist procs' f n parser calls h, ?_⟩
  obtain ⟨p, hp, hr, hh, hcur, _⟩ :=
    NewParser_spec (MmapReader.toReader ⟨data⟩) header (buildWhitelist header.VarHeader procs)
      (le_of_lt hrec.2.1)
  have hwf := NewParser_wellFormed _ _ _ p hp hdir hfit
  have hloop := processLoop_until_cancel bf data p N hr (by rw [hh]; exact hrec) hwf hcur header
    (buildWhitelist header.VarHeader procs) procs hok ctx m 1 p [] 0 fuel (le_refl _) (by omega)
    (fun j _ hj => hbefore j (by omega)) (by simpa using hat) hfuel rfl
  refine Exists.intro ?w (And.intro ?a ?b)
  case a =>
    simp only [process, hp]
    exact hloop
  case b =>
    intro i proc hi
    have hone : ∀ c, callsOf i (recordCalls (buildWhitelist header.VarHeader procs)
        header.SessionInfo (p.nthTick bf c) true procs 0)
        = [⟨i, inputFor (buildWhitelist header.VarHeader procs) proc (p.nthTick bf c),
            true, header.SessionInfo⟩] := by
      intro c
      rw [callsOf_recordCalls]
      simp [hi]
    have hproj := callsOf_expectedCalls i _ _ hone m 1
    have hcalls : ∀ cs : List Call, callsOf i ([] ++ cs) = callsOf i cs := fun cs => by simp
    rw [hcalls, hproj]
    refine ⟨by simp, ?_⟩
    simp only [List.map_map, Function.comp_def]
    rw [List.eq_replicate_iff]
    simp

/-- Witness of C16: the example of the spec, five records and the signal given
after the first one. -/
theorem process_cancellation_stops_the_pipeline_witness :
    holdsRecords fiveRecords sampleHeader.TelemetryHeader 5 ∧ cancelAfter 1 1 = true ∧
      ∃ calls,
        process sampleBitField 2 (cancelAfter 1) ⟨MmapReader.toReader ⟨fiveRecords⟩, sampleHeader⟩
            [quietProcessor ["Speed"], quietProcessor ["Gear"]]
          = Outcome.returned (some "context cancelled") calls ∧
        (callsOf 0 calls).length = 1 ∧ (callsOf 1 calls).length = 1 := by
  have hrec : holdsRecords fiveRecords sampleHeader.TelemetryHeader 5 :=
    ⟨by decide, by decide, by decide⟩
  refine ⟨hrec, by decide, ?_⟩
  obtain ⟨calls, h1, h2⟩ :=
    (process_cancellation_stops_the_pipeline sampleBitField fiveRecords sampleHeader
      [quietProcessor ["Speed"], quietProcessor ["Gear"]] 5 1 (cancelAfter 1) hrec
      sample_offsetsNonneg sample_spansRepresentable (quiet_never_fails _ _) (by decide)
      (fun j hj => by simp [cancelAfter]; omega) (by decide) 2 (le_refl _)).2
  exact ⟨calls, h1, (h2 0 _ rfl).1, (h2 1 _ rfl).1⟩

/-- C17: in a run of `process`, and in a run of `Process` over any stubs in
any order, when a call to a processor's `Process` returns an error, that call
is the last one made, to any processor, for any record of any stub, and the
pipeline returns exactly that error; more fuel does not change the run. -/
theorem processor_failure_ends_the_pipeline (bf : List Byte → String)
    (sortStubs : List Stub → List Stub) (fuel : Nat) (ctx : Nat → Bool)
    (ctxs : Nat → Nat → Bool) (stub : Stub) (stubs : List Stub) (procs : List Processor) :
    (∀ calls j e, (process bf fuel ctx stub procs).log = some calls →
      callResult procs calls j = some e →
      j + 1 = calls.length ∧
        ∀ d, process bf (fuel + d) ctx stub procs = Outcome.returned (some e) calls) ∧
    (∀ calls j e, (Process bf sortStubs fuel ctxs stubs procs).log = some calls →
      callResult procs calls j = some e →
      j + 1 = calls.length ∧
        ∀ d, Process bf sortStubs (fuel + d) ctxs stubs procs
          = Outcome.returned (some e) calls) := by
  have hproc : ∀ f, process bf f ctx stub procs = processFrom bf f ctx stub procs [] :=
    fun f => rfl
  constructor
  · intro calls j e hlog hfail
    have hs := processFrom_sound bf fuel ctx stub procs [] (allSucceeded_nil procs)
    rw [hproc] at hlog
    obtain ⟨h1, h2⟩ := failure_is_last procs _ hs calls j e hlog hfail
    refine ⟨h1, fun d => ?_⟩
    rw [hproc, processFrom_fuel_mono bf fuel d ctx stub procs [] (log_ne_outOfFuel _ _ hlog), h2]
  · intro calls j e hlog hfail
    have hs := ProcessLoop_sound bf fuel ctxs procs (sortStubs stubs) 0 [] (allSucceeded_nil procs)
    obtain ⟨h1, h2⟩ := failure_is_last procs _ hs calls j e hlog hfail
    refine ⟨h1, fun d => ?_⟩
    unfold Process at hlog ⊢
    rw [ProcessLoop_fuel_mono bf fuel d ctxs procs (sortStubs stubs) 0 []
      (log_ne_outOfFuel _ _ hlog), h2]

/-- Witness of C17: over three records, a processor that fails on its second
call; the run ends with that call and returns its error. -/
theorem processor_failure_ends_the_pipeline_witness :
    ∃ calls,
      (process sampleBitField 3 background ⟨MmapReader.toReader ⟨threeRecords⟩, sampleHeader⟩
          [failingProcessor]).log = some calls ∧
        callResult [failingProcessor] calls 1 = some "boom" ∧ calls.length = 2 ∧
        process sampleBitField (3 + 0) background
            ⟨MmapReader.toReader ⟨threeRecords⟩, sampleHeader⟩ [failingProcessor]
          = Outcome.returned (some "boom") calls := by
  refine ⟨[⟨0, some ⟨[("Gear", Value.int 2)]⟩, true, 0⟩,
    ⟨0, some ⟨[("Gear", Value.int 3)]⟩, true, 0⟩], by decide, by decide, rfl, ?_⟩
  exact ((processor_failure_ends_the_pipeline sampleBitField id 3 background (fun _ _ => false)
    ⟨MmapReader.toReader ⟨threeRecords⟩, sampleHeader⟩ [] [failingProcessor]).1 _ 1 "boom"
    (by decide) (by decide)).2 0

/-- C18: for a processor whose whitelist is not empty and has no `"*"`,
`parseAndValidateWhitelist` returns the names of the whitelist that are keys
of the directory, each as often as it is listed and in the order of the
whitelist; the other names are dropped. -/
theorem parseAndValidateWhitelist_explicit (vars : List (String × VarHeader))
    (processor : Processor) (hne : processor.Whitelist ≠ [])
    (hstar : "*" ∉ processor.Whitelist) :
    parseAndValidateWhitelist vars processor
      = processor.Whitelist.filter (fun col => decide (col ∈ vars.map Prod.fst)) := by
  have h0 : ¬ processor.Whitelist.length = 0 := by
    intro h
    exact hne (List.length_eq_zero.mp h)
  have h1 : processor.Whitelist.any (fun col => decide (col = "*")) = false := by
    rw [List.any_eq_false]
    intro col hcol
    simp only [decide_eq_true_eq]
    intro h
    exact hstar (h ▸ hcol)
  simp only [parseAndValidateWhitelist, h0, h1, if_false, Bool.false_eq_true]
  apply List.filter_congr
  intro col _
  rw [Bool.eq_iff_iff]
  simp only [decide_eq_true_eq]
  exact lookupEntry_isSome_iff col vars

/-- Witness of C18: `Gear`, an unknown name and `Gear` again, over the sample
directory. -/
theorem parseAndValidateWhitelist_explicit_witness :
    ["Gear", "Bogus", "Gear"] ≠ [] ∧ "*" ∉ ["Gear", "Bogus", "Gear"] ∧
      parseAndValidateWhitelist sampleHeader.VarHeader (quietProcessor ["Gear", "Bogus", "Gear"])
        = ["Gear", "Gear"] :=
  ⟨by decide, by decide,
    (parseAndValidateWhitelist_explicit sampleHeader.VarHeader
      (quietProcessor ["Gear", "Bogus", "Gear"]) (by decide) (by decide)).trans (by decide)⟩

/-- C19: `Tick.Filter` is idempotent: filtering the filtered tick by the same
names gives the filtered tick again, so the same key/value pairs. -/
theorem Filter_idempotent (t : Tick) (S : List String) :
    (t.Filter S).Filter S = t.Filter S ∧
      ∀ k, ((t.Filter S).Filter S).get k = (t.Filter S).get k := by
  have h : (t.Filter S).Filter S = t.Filter S := by
    unfold Tick.Filter
    apply filterLoop_congr
    intro f hf
    have := Filter_get t S f
    unfold Tick.Filter at this
    rw [this, if_pos hf]
  exact ⟨h, fun k => by rw [h]⟩

/-- C20: when the names `S` include every key of `t`, in any order and whatever
else they include, `Filter(t, S)` has the key/value pairs of `t`: every key
reads the same in both, and both have the same keys.  `Filter` only reads `t`,
which stays the value it was. -/
theorem Filter_superset (t : Tick) (S : List String) (hS : ∀ k, k ∈ t.keys → k ∈ S) :
    (∀ k, (t.Filter S).get k = t.get k) ∧ ∀ k, k ∈ (t.Filter S).keys ↔ k ∈ t.keys := by
  have h : ∀ k, (t.Filter S).get k = t.get k := by
    intro k
    rw [Filter_get]
    by_cases hk : k ∈ S
    · rw [if_pos hk]
    · rw [if_neg hk]
      have hnk : k ∉ t.keys := fun hc => hk (hS k hc)
      rw [Tick.mem_keys_iff] at hnk
      cases hg : t.get k with
      | none => rfl
      | some v => rw [hg] at hnk; simp at hnk
  exact ⟨h, fun k => by rw [Tick.mem_keys_iff, Tick.mem_keys_iff, h]⟩

/-- Witness of C20: the sample tick filtered by its keys in another order, with
a repetition and an unknown name. -/
theorem Filter_superset_witness :
    (∀ k, k ∈ sampleTick.keys → k ∈ ["Gear", "Bogus", "Speed", "Gear"]) ∧
      (sampleTick.Filter ["Gear", "Bogus", "Speed", "Gear"]).get "Speed" = sampleTick.get "Speed" :=
  ⟨by decide,
    (Filter_superset sampleTick ["Gear", "Bogus", "Speed", "Gear"] (by decide)).1 "Speed"⟩

/-! ## Helpers for the claims on the zero-copy parser, `GetTickValue` and `ParseAt` -/

theorem NextZeroCopy_simulates (bf : List Byte → String) (zq : ZeroCopyParser) (q : Parser)
    (h : zq.Parser.sameButTick q) :
    (zq.NextZeroCopy bf = none ∧ q.Next bf = none) ∨
      ∃ zq' q' r, zq.NextZeroCopy bf = some (zq', r) ∧ q.Next bf = some (q', r) ∧
        zq'.Parser.sameButTick q' := by
  obtain ⟨zp, rt⟩ := zq
  obtain ⟨r1, w1, h1, c1, b1, t1, vh1, vn1⟩ := zp
  obtain ⟨r2, w2, h2, c2, b2, t2, vh2, vn2⟩ := q
  simp only [Parser.sameButTick] at h
  obtain ⟨rfl, rfl, rfl, rfl, rfl, rfl, rfl⟩ := h
  simp only [ZeroCopyParser.NextZeroCopy, Parser.Next, Parser.read,
    ZeroCopyParser.readVarsFromBufferZeroCopy, Parser.readVarsFromBuffer]
  split_ifs with hok
  · right
    exact ⟨_, _, _, rfl, rfl, rfl, rfl, rfl, rfl, rfl, rfl, rfl⟩
  · cases hf : fillTick bf
        (copyInto (copyInto b1 (r1.ReadAt b1.length (h1.TelemetryHeader.BufOffset
          + c1 * h1.TelemetryHeader.BufLen)).1)
          (r1.ReadAt (copyInto b1 (r1.ReadAt b1.length (h1.TelemetryHeader.BufOffset
            + c1 * h1.TelemetryHeader.BufLen)).1).length
            (h1.TelemetryHeader.BufOffset + (c1 + 1) * h1.TelemetryHeader.BufLen)).1)
        vn1 vh1 0 Tick.empty with
    | none => left; simp [hf]
    | some t =>
      right
      simp only [hf]
      exact ⟨_, _, _, rfl, rfl, rfl, rfl, rfl, rfl, rfl, rfl, rfl⟩


theorem afterNextZeroCopy_simulates (bf : List Byte → String) (zp : ZeroCopyParser) (p : Parser)
    (h : zp.Parser.sameButTick p) :
    ∀ k, (zp.afterNext bf k = none ∧ p.afterNext bf k = none) ∨
      ∃ zq q, zp.afterNext bf k = some zq ∧ p.afterNext bf k = some q ∧
        zq.Parser.sameButTick q := by
  intro k
  induction k with
  | zero => exact Or.inr ⟨zp, p, rfl, rfl, h⟩
  | succ k ih =>
    rcases ih with ⟨h1, h2⟩ | ⟨zq, q, h1, h2, hs⟩
    · left
      simp [ZeroCopyParser.afterNext, Parser.afterNext, h1, h2]
    · rcases NextZeroCopy_simulates bf zq q hs with ⟨h3, h4⟩ | ⟨zq', q', r, h3, h4, hs'⟩
      · left
        simp [ZeroCopyParser.afterNext, Parser.afterNext, h1, h2, h3, h4]
      · right
        exact ⟨zq', q', by simp [ZeroCopyParser.afterNext, h1, h3],
          by simp [Parser.afterNext, h2, h4], hs'⟩

theorem nthNextZeroCopy_eq (bf : List Byte → String) (zp : ZeroCopyParser) (p : Parser)
    (h : zp.Parser.sameButTick p) (k : Nat) :
    zp.nthNext bf k = p.nthNext bf k := by
  rcases afterNextZeroCopy_simulates bf zp p h (k - 1) with ⟨h1, h2⟩ | ⟨zq, q, h1, h2, hs⟩
  · simp [ZeroCopyParser.nthNext, Parser.nthNext, h1, h2]
  · rcases NextZeroCopy_simulates bf zq q hs with ⟨h3, h4⟩ | ⟨zq', q', r, h3, h4, _⟩
    · simp [ZeroCopyParser.nthNext, Parser.nthNext, h1, h2, h3, h4]
    · simp [ZeroCopyParser.nthNext, Parser.nthNext, h1, h2, h3, h4]

theorem afterNext_total (bf : List Byte → String) (p : Parser) (hp : p.wellFormed) :
    ∀ k, ∃ q, p.afterNext bf k = some q ∧ SameConfig p q := by
  intro k
  induction k with
  | zero => exact ⟨p, rfl, SameConfig.refl p⟩
  | succ k ih =>
    obtain ⟨q, hq, hc⟩ := ih
    have hwf := wellFormed_congr hc hp
    obtain ⟨⟨q', t, b⟩, hn⟩ := Next_total bf q hwf
    exact ⟨q', by simp [Parser.afterNext, hq, hn], hc.trans (Next_result bf q q' t b hn hwf.2).1⟩

theorem nthNext_total (bf : List Byte → String) (p : Parser) (hp : p.wellFormed) (k : Nat) :
    ∃ r, p.nthNext bf k = some r := by
  obtain ⟨q, hq, hc⟩ := afterNext_total bf p hp (k - 1)
  obtain ⟨⟨q', r⟩, hn⟩ := Next_total bf q (wellFormed_congr hc hp)
  exact ⟨r, by simp [Parser.nthNext, hq, hn]⟩

theorem Value.kind_eq_none (v : Value) : v.kind = none ↔ v = Value.nil := by
  cases v <;> simp [Value.kind]

/-- `GetTickValue` on a key that is absent or whose value is not the nil
interface: it returns; the error is nil exactly when the key is present and
its value has the requested type, and then the value returned is the stored
one; otherwise the value returned is the zero value of the type. -/
theorem GetTickValue_of_not_nil (T : Kind) (tick : Tick) (key : String)
    (h : tick.get key ≠ some Value.nil) :
    ∃ v err, GetTickValue T tick key = some (v, err) ∧
      (err = none ↔ ∃ raw, tick.get key = some raw ∧ raw.kind = some T) ∧
      (err = none → tick.get key = some v) ∧ (err ≠ none → v = T.zero) := by
  unfold GetTickValue
  cases hg : tick.get key with
  | none => exact ⟨_, _, rfl, by simp, by simp, fun _ => rfl⟩
  | some raw =>
    by_cases hk : raw.kind = some T
    · simp only [hk, if_true]
      exact ⟨_, _, rfl, by simp [hk], fun _ => rfl, by simp⟩
    · simp only [hk, if_false]
      cases hkind : raw.kind with
      | none =>
        rw [Value.kind_eq_none] at hkind
        rw [hg, hkind] at h
        exact absurd rfl h
      | some k =>
        rw [hkind] at hk
        exact ⟨_, _, rfl, by simpa [hkind] using hk, by simp, fun _ => rfl⟩

theorem copyInto_full (dst src : List Byte) (h : src.length = dst.length) :
    copyInto dst src = src := by
  unfold copyInto
  rw [← h, List.take_length, List.drop_of_length_le (by omega), List.append_nil]

/-- The tick `ParseAt` returns is decoded from the buffer as the read left
it. -/
theorem ParseAt_tick_eq (bf : List Byte → String) (q : Parser) (offset : Int) :
    (q.ParseAt bf offset).map (fun r => r.2)
      = if (q.read offset).2 then
          (fillTick bf (q.read offset).1.bufferPool q.varNames q.varHeaders 0 Tick.empty).map some
        else some none := by
  unfold Parser.ParseAt
  cases hr : (q.read offset).2 with
  | false => simp [hr]
  | true =>
    simp only [hr, Bool.not_true, Bool.false_eq_true, if_false, if_true,
      Parser.readVarsFromBuffer]
    have h1 : (q.read offset).1.varNames = q.varNames := rfl
    have h2 : (q.read offset).1.varHeaders = q.varHeaders := rfl
    rw [h1, h2]
    cases fillTick bf (q.read offset).1.bufferPool q.varNames q.varHeaders 0 Tick.empty with
    | none => rfl
    | some t => rfl

/-- Over an `MmapReader`, a read that fails, or that finds as many bytes as
the buffer holds, leaves a buffer that does not depend on what it held. -/
theorem mmap_read_full (data : List Byte) (q : Parser)
    (hr : q.reader = MmapReader.toReader ⟨data⟩) (offset : Int)
    (hfull : 0 ≤ offset ∧ offset < data.length ∧ offset + q.bufferPool.length ≤ data.length) :
    (q.read offset).2 = true ∧
      (q.read offset).1.bufferPool = (data.drop offset.toNat).take q.bufferPool.length := by
  obtain ⟨h0, h1, h2⟩ := hfull
  have hne : ¬ (offset < 0 ∨ offset ≥ data.length) := by omega
  simp only [Parser.read, hr, MmapReader.toReader, MmapReader.ReadAt, if_neg hne, Bool.not_false,
    true_and]
  apply copyInto_full
  rw [List.length_take, List.length_drop]
  omega

/-- History independence of `ParseAt` where the read is not short: for two
states of a parser over the same `MmapReader`, header and pre-computed
variables, `ParseAt(offset)` returns the same tick when the read fails or the
source holds a whole record from `offset` on. -/
theorem ParseAt_same_tick_of_full_read (bf : List Byte → String) (data : List Byte)
    (q1 q2 : Parser) (hr : q1.reader = MmapReader.toReader ⟨data⟩) (hc : SameConfig q1 q2)
    (offset : Int)
    (hfull : offset < 0 ∨ offset ≥ data.length ∨ offset + q1.bufferPool.length ≤ data.length) :
    (q1.ParseAt bf offset).map (fun r => r.2) = (q2.ParseAt bf offset).map (fun r => r.2) := by
  have hr2 : q2.reader = MmapReader.toReader ⟨data⟩ := hc.reader.trans hr
  rw [ParseAt_tick_eq, ParseAt_tick_eq, hc.varNames, hc.varHeaders]
  by_cases hfail : 0 ≤ offset ∧ offset < data.length
  · have hf1 : 0 ≤ offset ∧ offset < data.length ∧ offset + q1.bufferPool.length ≤ data.length :=
      ⟨hfail.1, hfail.2, by omega⟩
    have hf2 : 0 ≤ offset ∧ offset < data.length ∧ offset + q2.bufferPool.length ≤ data.length :=
      by rw [hc.bufLen]; exact hf1
    obtain ⟨a1, b1⟩ := mmap_read_full data q1 hr offset hf1
    obtain ⟨a2, b2⟩ := mmap_read_full data q2 hr2 offset hf2
    rw [a1, a2, b1, b2, hc.bufLen]
  · have e1 := mmap_read_ok data q1 hr offset
    have e2 := mmap_read_ok data q2 hr2 offset
    simp only [hfail, decide_False] at e1 e2
    rw [e1, e2]
    simp

theorem runProcessors_of_allSucceeded (procs : List Processor) (whitelist : List String)
    (tick : Option Tick) (hasNext : Bool) (session : Nat) :
    ∀ (rest : List Processor) (i : Nat) (calls : List Call),
      (∀ k, rest[k]? = procs[i + k]?) →
      allSucceeded procs (calls ++ recordCalls whitelist session tick hasNext rest i) →
      runProcessors whitelist tick hasNext session rest i calls
        = (none, calls ++ recordCalls whitelist session tick hasNext rest i) := by
  intro rest
  induction rest with
  | nil => intro i calls _ _; simp [runProcessors, recordCalls]
  | cons proc rest ih =>
    intro i calls hidx hgood
    have hproc : procs[i]? = some proc := by
      have := hidx 0
      simpa using this.symm
    have hrest : ∀ k, rest[k]? = procs[i + 1 + k]? := by
      intro k
      have := hidx (k + 1)
      rw [List.getElem?_cons_succ] at this
      rw [this]
      congr 1
      omega
    have hsplit : calls ++ recordCalls whitelist session tick hasNext (proc :: rest) i
        = (calls ++ [⟨i, inputFor whitelist proc tick, hasNext, session⟩])
          ++ recordCalls whitelist session tick hasNext rest (i + 1) := by
      simp [recordCalls]
    rw [hsplit] at hgood ⊢
    have hcall : proc.Process calls (inputFor whitelist proc tick) hasNext session = none := by
      have h1 := hgood calls.length
      rw [callResult_append_left procs _ _ calls.length (by simp),
        callResult_last procs calls _ proc hproc] at h1
      exact h1
    have hcall' : proc.Process calls
        (if proc.Whitelist.length ≥ whitelist.length then tick
          else some (filterNilable tick proc.Whitelist)) hasNext session = none := hcall
    unfold runProcessors
    simp only [hcall']
    exact ih (i + 1) _ hrest hgood

theorem filterLoop_empty : ∀ (S : List String) (acc : Tick), filterLoop Tick.empty S acc = acc := by
  intro S
  induction S with
  | nil => intro acc; rfl
  | cons f rest ih =>
    intro acc
    unfold filterLoop
    have h : Tick.empty.get f = none := rfl
    rw [h]
    exact ih acc

theorem inputFor_nil (whitelist : List String) (proc : Processor) :
    inputFor whitelist proc none = none ∨ inputFor whitelist proc none = some Tick.empty := by
  unfold inputFor
  split_ifs
  · exact Or.inl rfl
  · right
    simp [filterNilable, Tick.Filter, filterLoop_empty]

theorem NewParser_bufLen (reader : Reader) (header : Header) (whitelist : List String)
    (p : Parser) (hp : NewParser reader header whitelist = some p) :
    p.bufferPool.length = header.TelemetryHeader.BufLen.toNat := by
  unfold NewParser at hp
  split_ifs at hp
  simp only [Option.some.injEq] at hp
  subst hp
  simp

/-! ## Claims on the zero-copy parser, `GetTickValue`, `ParseAt` and empty stubs -/

/-- C21: over the same source, header and whitelist, the `k`-th call to
`NextZeroCopy` on a fresh `ZeroCopyParser` and the `k`-th call to `Next` on a
fresh `Parser` return the same tick and the same `hasMore` flag (or panic
alike), and after `k` calls both have the same `current`; when the record
length and the offsets of the directory are not negative and no span of the
directory ends past the largest Go `int`, the calls do return. -/
theorem NextZeroCopy_agrees_with_Next (bf : List Byte → String) (reader : Reader)
    (header : Header) (whitelist : List String) (k : Nat) :
    (NewZeroCopyParser reader header whitelist).bind (fun zp => zp.nthNext bf k)
        = (NewParser reader header whitelist).bind (fun p => p.nthNext bf k) ∧
    ((NewZeroCopyParser reader header whitelist).bind (fun zp => zp.afterNext bf k)).map
        (fun zq => zq.Parser.current)
      = ((NewParser reader header whitelist).bind (fun p => p.afterNext bf k)).map
        (fun q => q.current) ∧
    (0 ≤ header.TelemetryHeader.BufLen → offsetsNonneg header.VarHeader →
      spansRepresentable header.VarHeader →
      ∃ r, (NewZeroCopyParser reader header whitelist).bind (fun zp => zp.nthNext bf k)
        = some r) := by
  cases hp : NewParser reader header whitelist with
  | none =>
    refine ⟨by simp [NewZeroCopyParser, hp], by simp [NewZeroCopyParser, hp], ?_⟩
    intro hlen _ _
    obtain ⟨p, hp', _⟩ := NewParser_spec reader header whitelist hlen
    rw [hp] at hp'
    exact absurd hp' (by simp)
  | some p =>
    have hs : Parser.sameButTick p p := ⟨rfl, rfl, rfl, rfl, rfl, rfl, rfl⟩
    have hz : NewZeroCopyParser reader header whitelist
        = some { Parser := p, resultTick := Tick.empty } := by
      simp [NewZeroCopyParser, hp]
    have hnth := nthNextZeroCopy_eq bf { Parser := p, resultTick := Tick.empty } p hs k
    refine ⟨by simp [hz, hnth], ?_, ?_⟩
    · rcases afterNextZeroCopy_simulates bf { Parser := p, resultTick := Tick.empty } p hs k with
        ⟨h1, h2⟩ | ⟨zq, q, h1, h2, hq⟩
      · simp [hz, h1, h2]
      · simp [hz, h1, h2, hq.2.2.2.1]
    · intro _ hdir hfit
      obtain ⟨r, hr⟩ := nthNext_total bf p (NewParser_wellFormed _ _ _ p hp hdir hfit) k
      exact ⟨r, by simp [hz, hnth, hr]⟩

/-- Witness of C21: the second call over the three-record sample. -/
theorem NextZeroCopy_agrees_with_Next_witness :
    (0 : Int) ≤ sampleHeader.TelemetryHeader.BufLen ∧ offsetsNonneg sampleHeader.VarHeader ∧
      spansRepresentable sampleHeader.VarHeader ∧
      (NewZeroCopyParser (MmapReader.toReader ⟨threeRecords⟩) sampleHeader ["Gear"]).bind
          (fun zp => zp.nthNext sampleBitField 2)
        = (NewParser (MmapReader.toReader ⟨threeRecords⟩) sampleHeader ["Gear"]).bind
          (fun p => p.nthNext sampleBitField 2) ∧
      ∃ r, (NewZeroCopyParser (MmapReader.toReader ⟨threeRecords⟩) sampleHeader ["Gear"]).bind
          (fun zp => zp.nthNext sampleBitField 2) = some r :=
  ⟨by decide, sample_offsetsNonneg, sample_spansRepresentable,
    (NextZeroCopy_agrees_with_Next sampleBitField (MmapReader.toReader ⟨threeRecords⟩)
      sampleHeader ["Gear"] 2).1,
    (NextZeroCopy_agrees_with_Next sampleBitField (MmapReader.toReader ⟨threeRecords⟩)
      sampleHeader ["Gear"] 2).2.2 (by decide) sample_offsetsNonneg sample_spansRepresentable⟩

/-- C22 (evaluation at the failing input): a directory variable of raw type 6
decodes to the nil value, which `Next` stores in the tick under its name; on
that tick `GetTickValue[int]` panics instead of returning an error. -/
theorem GetTickValue_panics_on_nil_value :
    (NewParser (MmapReader.toReader ⟨oneRecord⟩) mysteryHeader ["Mystery"]).bind
        (fun p => p.nthNext sampleBitField 1)
      = some (some ⟨[("Mystery", Value.nil)]⟩, false) ∧
    GetTickValue Kind.int ⟨[("Mystery", Value.nil)]⟩ "Mystery" = none ∧
    GetTickValue Kind.int ⟨[("Mystery", Value.nil)]⟩ "Other"
      = some (Value.int 0, some "key Other not found in tick") := by
  decide

/-- C23 (evaluation at the failing input): with records of two bytes over a
source of three bytes, `ParseAt(2)` reads one byte and decodes the variable at
offset 1 from what the buffer held before: 0 on a fresh parser, 11 after a
`ParseAt(0)`. -/
theorem ParseAt_depends_on_earlier_reads :
    (NewParser (MmapReader.toReader ⟨threeBytes⟩) shortHeader ["x"]).bind
        (fun p => (p.ParseAt sampleBitField 2).map (fun r => r.2))
      = some (some ⟨[("x", Value.u8 0)]⟩) ∧
    (NewParser (MmapReader.toReader ⟨threeBytes⟩) shortHeader ["x"]).bind
        (fun p => (p.ParseAt sampleBitField 0).bind
          (fun r => (r.1.ParseAt sampleBitField 2).map (fun r' => r'.2)))
      = some (some ⟨[("x", Value.u8 11)]⟩) ∧
    (MmapReader.ReadAt ⟨threeBytes⟩ 2 2) = ([12], false) := by
  decide

/-- C24: for a stub whose read of record 1 signals end-of-range, `process`
with a context not cancelled at its first iteration calls every processor
exactly once, with `hasNext = false` and the nil tick or its empty filtered
copy, and, when none of those calls fails, returns no error. -/
theorem process_without_records_calls_each_processor_once (bf : List Byte → String)
    (reader : Reader) (header : Header) (procs : List Processor) (ctx : Nat → Bool)
    (fuel : Nat) (hlen : 0 ≤ header.TelemetryHeader.BufLen)
    (hend : (reader.ReadAt header.TelemetryHeader.BufLen.toNat
      (header.TelemetryHeader.BufOffset + 1 * header.TelemetryHeader.BufLen)).2 = true)
    (hctx : ctx 0 = false) (hfuel : 1 ≤ fuel)
    (hok : allSucceeded procs (recordCalls (buildWhitelist header.VarHeader procs)
      header.SessionInfo none false procs 0)) :
    process bf fuel ctx ⟨reader, header⟩ procs
        = Outcome.returned none (recordCalls (buildWhitelist header.VarHeader procs)
            header.SessionInfo none false procs 0) ∧
      ∀ i proc, procs[i]? = some proc →
        callsOf i (recordCalls (buildWhitelist header.VarHeader procs)
            header.SessionInfo none false procs 0)
          = [⟨i, inputFor (buildWhitelist header.VarHeader procs) proc none, false,
              header.SessionInfo⟩] ∧
        (inputFor (buildWhitelist header.VarHeader procs) proc none = none ∨
          inputFor (buildWhitelist header.VarHeader procs) proc none = some Tick.empty) := by
  constructor
  · obtain ⟨f, rfl⟩ : ∃ f, fuel = f + 1 := ⟨fuel - 1, by omega⟩
    obtain ⟨p, hp, hr, hh, hcur, _⟩ :=
      NewParser_spec reader header (buildWhitelist header.VarHeader procs) hlen
    have hb := NewParser_bufLen reader header _ p hp
    simp only [process, hp]
    unfold processLoop
    simp only [hctx, Bool.false_eq_true, if_false]
    have hread : ∀ p : Parser, p.reader = reader → p.header = header → p.current = 1 →
        p.bufferPool.length = header.TelemetryHeader.BufLen.toNat →
        (p.read (p.recordOffset p.current)).2 = false := by
      intro p h1 h2 h3 h4
      simp only [Parser.read, Parser.recordOffset, h1, h2, h3, h4, hend, Bool.not_true]
    obtain ⟨p', hn, _, _⟩ := Next_fail bf p (hread p hr hh hcur hb)
    rw [hn]
    simp only []
    rw [runProcessors_of_allSucceeded procs _ none false _ procs 0 [] (fun k => by simp)
      (by simpa using hok)]
    simp
  · intro i proc hi
    refine ⟨?_, inputFor_nil _ proc⟩
    rw [callsOf_recordCalls]
    simp [hi]

/-- Witness of C24: a source that ends with record 0; the processor asking for
`Speed` is handed the empty filtered copy, the one asking for both fields the
nil tick. -/
theorem process_without_records_calls_each_processor_once_witness :
    (0 : Int) ≤ sampleHeader.TelemetryHeader.BufLen ∧ background 0 = false ∧
      process sampleBitField 1 background
          ⟨MmapReader.toReader ⟨sampleRecord 0 0⟩, sampleHeader⟩
          [quietProcessor ["Speed"], quietProcessor ["Speed", "Gear"]]
        = Outcome.returned none
            [⟨0, some ⟨[]⟩, false, 0⟩, ⟨1, none, false, 0⟩] := by
  refine ⟨by decide, rfl, ?_⟩
  exact (process_without_records_calls_each_processor_once sampleBitField
    (MmapReader.toReader ⟨sampleRecord 0 0⟩) sampleHeader
    [quietProcessor ["Speed"], quietProcessor ["Speed", "Gear"]] background 1 (by decide)
    (by decide) rfl
    (le_refl _) (by intro j; rcases j with _ | _ | j <;> rfl)).1.trans (by decide)

end Ibt
